import Mathlib

/-!
# mysqldumpsplitter: the statement scanner and the chunk accumulator

A shallow embedding of `src/main.cpp`.

* Bytes of the dump (`char`) are `Char`; a `std::string` is a `List Char`, so
  `length()` is `List.length` and `+=` is `++`.
* `std::ifstream sqlFile` is a `Stream`: the bytes not yet read and the stream
  state tested by `while (sqlFile)` and `if (!sqlFile)`.
* The three loops of `processFile` are three functions: `scanLoop` (the
  `for (char current; sqlFile.get(current);)` loop), `statementLoop` (the
  `while (sqlFile)` loop) and `chunkLoop` (the `for (partCount ...)` loop).
  The two outer ones recurse on a step budget and answer `none` when it runs
  out; `processFile` always hands over a budget that is large enough
  (`processFile_returns`).
* The file system is explicit: `Env` says which opens and writes succeed, the
  `Outcome` lists the output files created and the blocks written.
* `size_t` lengths are natural numbers: a `std::string` is shorter than `2^63`
  bytes, so the one sum the code forms (line 143) cannot wrap.
* `createOutputFilename` takes the stem and the extension of the input path,
  which lines 62-63 get from `std::filesystem`; the stream insertion of line 66
  is `insertPadded`.
* Of the progress display only what a run depends on is kept: whether a call
  of `outputStatistics` returns or throws. Its `float` arithmetic is
  `roundToFloat` and `floatRatio`, on natural numbers. What is printed to
  `std::cout` and `std::cerr` is left out.
* An exception is caught nowhere in the program, so a throw ends the process:
  a run ends `returned` with a status or `aborted`. Memory is taken to
  suffice: no allocation throws.
-/

namespace MySqlDumpSplitter

/-- The `enum class ReturnValues` of lines 35-44, in declaration order. -/
inductive ReturnValues where
  | Success
  | BadArguments
  | CanNotOpen
  | PrematureEndSQL
  | CanNotOpenForWrite
  | CanNotWrite
  | MaxByteSizeExceeded
  | UnknownReason
  deriving DecidableEq

/-- The input stream `sqlFile`: `rest` holds the bytes not yet read, `good` is
the value of `static_cast<bool>(sqlFile)`, that is `!fail()`. -/
structure Stream where
  rest : List Char
  good : Bool
  deriving DecidableEq

/-- The constant `1ULL * 1024 * 1024 * 1024` of line 118. -/
def statementCeiling : Nat := 1 * 1024 * 1024 * 1024

/-- The `if / else if` chain of lines 106-115 for one byte `current`: the new
`insideQuotes`, the new `isEscaped`, and whether the `break` of line 114 is
taken. -/
def charStep (insideQuotes isEscaped : Bool) (current : Char) : Bool × Bool × Bool :=
  if isEscaped = true then (insideQuotes, false, false)
  else if current = '\\' then (insideQuotes, true, false)
  else if current = '\'' then (!insideQuotes, isEscaped, false)
  else if current = ';' ∧ insideQuotes = false then (insideQuotes, isEscaped, true)
  else (insideQuotes, isEscaped, false)

/-- What one run of the scan loop (lines 105-124) ends with. -/
inductive ScanResult where
  /-- The loop ended, by `break` or by a failed `get`: `singleStatement` and the
  stream as it is left. -/
  | stmt (singleStatement : List Char) (after : Stream)
  /-- The `return ReturnValues::MaxByteSizeExceeded` of line 122. -/
  | tooLong
  deriving DecidableEq

/-- The loop `for (char current; sqlFile.get(current);)` of lines 105-124, on
the unread bytes, with `singleStatement`, `insideQuotes` and `isEscaped` as they
stand. A `get` at the end of the input fails and leaves the stream failed. -/
def scanLoop : List Char → List Char → Bool → Bool → ScanResult
  | [], singleStatement, _, _ => .stmt singleStatement ⟨[], false⟩
  | current :: rest, singleStatement, insideQuotes, isEscaped =>
    match charStep insideQuotes isEscaped current with
    | (_, _, true) => .stmt (singleStatement ++ [current]) ⟨rest, true⟩
    | (insideQuotes', isEscaped', false) =>
      if (singleStatement ++ [current]).length > statementCeiling then .tooLong
      else scanLoop rest (singleStatement ++ [current]) insideQuotes' isEscaped'

/-- One statement scan, lines 101-124: fresh `singleStatement`, `insideQuotes`
and `isEscaped`, then the scan loop. -/
def scan (unread : List Char) : ScanResult :=
  scanLoop unread [] false false

/-- How a call ends: it returns a value, or it throws an exception that nothing
catches, which ends the process through `std::terminate`. -/
inductive Ending (α : Type) where
  | returned (value : α)
  | aborted
  deriving DecidableEq

/-- The value a call returned, mapped; an aborted call stays aborted. -/
def Ending.map {α β : Type} (f : α → β) : Ending α → Ending β
  | .returned value => .returned (f value)
  | .aborted => .aborted

/-- How many low bits of `n` lie beyond its 24 most significant ones, counted by
halving `n` until it is below `2^24`; `budget` bounds the count and `n` itself
is always enough. -/
def droppedBits : Nat → Nat → Nat
  | 0, _ => 0
  | budget + 1, n => if n < 2 ^ 24 then 0 else droppedBits budget (n / 2) + 1

/-- Rounding to `float` (IEEE binary32, 24 significant bits, round to nearest,
ties to even) of a natural number `n`: the value of `static_cast<float>(n)`.
The same rounding serves for a `float` result written as a natural number of
units `2^-128`. -/
def roundToFloat (n : Nat) : Nat :=
  let shift := droppedBits n n
  let q := n / 2 ^ shift
  let r := n % 2 ^ shift
  if 2 ^ shift < 2 * r ∨ (2 * r = 2 ^ shift ∧ q % 2 = 1) then (q + 1) * 2 ^ shift
  else q * 2 ^ shift

/-- The `float ratio = static_cast<float>(currentBytes) / maxBytes` of line 53
for `maxBytes` other than zero, in units of `2^-128`: both sizes are converted
to `float` and the quotient is rounded to `float`. The quotient is taken to one
bit more than the unit, with a last bit that says whether the division left a
remainder, so that the rounding sees on which side of a tie it is. -/
def floatRatio (currentBytes maxBytes : Nat) : Nat :=
  let dividend := roundToFloat currentBytes * 2 ^ 127
  let divisor := roundToFloat maxBytes
  roundToFloat (2 * (dividend / divisor) + (if dividend % divisor = 0 then 0 else 1))

/-- The longest `std::string` the library makes, `max_size()`: the value of
libstdc++ on a 64-bit target. The constructor `std::string(n, c)` throws
`std::length_error` for a longer one. -/
def stringMaxSize : Nat := 2 ^ 62 - 1

/-- The function `outputStatistics` of lines 48-59, as far as a run depends on
it: whether the call returns (`true`) or not (`false`); what it prints is left
out. With `maxBytes = 0` the ratio is `0/0`, not a number, or infinite; its
conversion to `size_t` on line 54 is undefined, and the code generated for
x86-64 gives `2^63` for `0/0`, for which `std::string(maxBar, '=')` throws
`std::length_error`: the call does not return. Otherwise `maxBar` is the
product of the ratio and the bar width, rounded to `float` and cut to a whole
number, the conversion being undefined from `2^64` on; line 56 builds a string
of `maxBar` bytes and one of `barWidth - maxBar` bytes, the difference taken in
`size_t`, and each of them throws when longer than `stringMaxSize`. -/
def outputStatistics (currentBytes maxBytes barWidth : Nat) : Bool :=
  if maxBytes = 0 then false
  else
    let maxBar :=
      roundToFloat (floatRatio currentBytes maxBytes * roundToFloat barWidth) / 2 ^ 128
    decide (maxBar < 2 ^ 64) && decide (maxBar ≤ stringMaxSize) &&
      decide ((barWidth + 2 ^ 64 - maxBar) % 2 ^ 64 ≤ stringMaxSize)

/-- How the `while (sqlFile)` loop of lines 100-149 ends. -/
inductive LoopResult where
  /-- A `return` from inside the loop, with its status. -/
  | failed (status : ReturnValues)
  /-- An exception thrown by the `outputStatistics` call of line 131. -/
  | aborted
  /-- The loop was left (by `break` or by its condition): `blockOfStatements`,
  `lastReadStatement` and the stream. -/
  | left (blockOfStatements lastReadStatement : List Char) (after : Stream)
  deriving DecidableEq

/-- The `while (sqlFile)` loop of lines 100-149. `lastReadStatement` was cleared
on line 98, so it is empty unless line 144 assigns it. The `linePreview` of
lines 126-129 takes a prefix of the statement and drops its line ends, which
cannot fail. -/
def statementLoop (maxByteSize outputBarWidth : Nat) :
    Nat → Stream → List Char → Option LoopResult
  | 0, _, _ => none
  | budget + 1, sqlFile, blockOfStatements =>
    if sqlFile.good = true then
      match scan sqlFile.rest with
      | .tooLong => some (.failed .MaxByteSizeExceeded)
      | .stmt singleStatement after =>
        if outputStatistics blockOfStatements.length maxByteSize outputBarWidth = false then
          some .aborted
        else if singleStatement.length > maxByteSize then
          some (.failed .MaxByteSizeExceeded)
        else if blockOfStatements.length + singleStatement.length > maxByteSize then
          some (.left blockOfStatements singleStatement after)
        else
          statementLoop maxByteSize outputBarWidth budget after
            (blockOfStatements ++ singleStatement)
    else some (.left blockOfStatements [] sqlFile)

/-- Which file operations succeed: opening the input (line 73), opening the
output file of a part (line 86), writing the block of a part (line 154). -/
structure Env where
  inputOpens : Bool
  outputOpens : Nat → Bool
  writeSucceeds : Nat → Bool

/-- The environment in which every file operation succeeds. -/
def Env.ideal : Env := ⟨true, fun _ => true, fun _ => true⟩

/-- What a run of `processFile` leaves behind: how it ended, with the status it
returned if it did return; the part numbers whose output file was created by
line 86 (oldest first); the blocks written by line 154 (oldest first, so the
`i`-th is part `i`); and the content of `lastReadStatement` at the end. -/
structure Outcome where
  status : Ending ReturnValues
  created : List Nat
  written : List (List Char)
  lastReadStatement : List Char
  deriving DecidableEq

/-- The loop `for (size_t partCount = 0;; ++partCount)` of lines 84-164, with
the files created and the blocks written so far. -/
def chunkLoop (env : Env) (maxByteSize outputBarWidth : Nat) :
    Nat → Nat → Stream → List Char → List Nat → List (List Char) → Option Outcome
  | 0, _, _, _, _, _ => none
  | budget + 1, partCount, sqlFile, lastReadStatement, created, written =>
    if env.outputOpens partCount = false then
      some ⟨.returned .CanNotOpenForWrite, created, written, lastReadStatement⟩
    else
      match statementLoop maxByteSize outputBarWidth (sqlFile.rest.length + 2) sqlFile
          lastReadStatement with
      | none => none
      | some (.failed status) => some ⟨.returned status, created ++ [partCount], written, []⟩
      | some .aborted => some ⟨.aborted, created ++ [partCount], written, []⟩
      | some (.left blockOfStatements lastReadStatement' after) =>
        if outputStatistics blockOfStatements.length maxByteSize outputBarWidth = false then
          some ⟨.aborted, created ++ [partCount], written, lastReadStatement'⟩
        else if env.writeSucceeds partCount = false then
          some ⟨.returned .CanNotWrite, created ++ [partCount], written, lastReadStatement'⟩
        else if after.good = false then
          some ⟨.returned .Success, created ++ [partCount], written ++ [blockOfStatements],
            lastReadStatement'⟩
        else
          chunkLoop env maxByteSize outputBarWidth budget (partCount + 1) after
            lastReadStatement' (created ++ [partCount]) (written ++ [blockOfStatements])

/-- The function `processFile` of lines 71-167 on an input file with the given
content. -/
def processFile (env : Env) (input : List Char) (maxByteSize outputBarWidth : Nat) :
    Option Outcome :=
  if env.inputOpens = false then some ⟨.returned .CanNotOpen, [], [], []⟩
  else chunkLoop env maxByteSize outputBarWidth (input.length + 1) 0 ⟨input, true⟩ [] [] []

/-- The flags `(insideQuotes, isEscaped)` of the scan loop after it has read the
bytes `read` from the flags given, none of them taking the `break`. -/
def flagsAfter : Bool → Bool → List Char → Bool × Bool
  | insideQuotes, isEscaped, [] => (insideQuotes, isEscaped)
  | insideQuotes, isEscaped, current :: read =>
    flagsAfter (charStep insideQuotes isEscaped current).1
      (charStep insideQuotes isEscaped current).2.1 read

/-- Successive statement scans: started on the stream `s`, the scanner yields
the statements `stmts` one after the other, the stream being good before each
scan, and leaves the stream as `t`. -/
def ScansTo : Stream → List (List Char) → Stream → Prop
  | s, [], t => s = t
  | s, st :: stmts, t =>
    s.good = true ∧
      match scan s.rest with
      | .stmt st' s' => st' = st ∧ ScansTo s' stmts t
      | .tooLong => False

/-- The scanner, run on `input` until the stream is exhausted, yields exactly
the statements `stmts` (and never stops at the ceiling of line 118). -/
def Yields (input : List Char) (stmts : List (List Char)) : Prop :=
  ScansTo ⟨input, true⟩ stmts ⟨[], false⟩

/-- The statement carried over in `lastReadStatement`, if there is one: line
144 only ever stores a non-empty statement, line 98 leaves it empty. -/
def carried (lastReadStatement : List Char) : List (List Char) :=
  if lastReadStatement = [] then [] else [lastReadStatement]

/-- The boundary decision of line 143 between two neighbouring runs of
statements: the second run starts with a statement that did not fit after the
first. -/
def ClosedBy (maxByteSize : Nat) (run next : List (List Char)) : Prop :=
  match next with
  | [] => False
  | first :: _ => run.flatten.length + first.length > maxByteSize

instance (maxByteSize : Nat) (run next : List (List Char)) :
    Decidable (ClosedBy maxByteSize run next) := by
  unfold ClosedBy
  cases next with
  | nil => exact inferInstanceAs (Decidable False)
  | cons first more =>
    exact inferInstanceAs (Decidable (run.flatten.length + first.length > maxByteSize))

instance decScansTo : ∀ (stmts : List (List Char)) (s t : Stream), Decidable (ScansTo s stmts t)
  | [], s, t => by unfold ScansTo; exact inferInstance
  | st :: stmts, s, t => by
    unfold ScansTo
    cases h : scan s.rest with
    | tooLong => exact inferInstanceAs (Decidable (s.good = true ∧ False))
    | stmt st' s' =>
      have := decScansTo stmts s' t
      exact inferInstanceAs (Decidable (s.good = true ∧ (st' = st ∧ ScansTo s' stmts t)))

instance (input : List Char) (stmts : List (List Char)) : Decidable (Yields input stmts) :=
  decScansTo _ _ _

/-- What `partStream << std::setw(width) << std::setfill(fill) << value` puts
into the stream for an unsigned `value` (line 66): its decimal digits, adjusted
to the right in a field of `width` bytes with `fill` in the room on the left,
and the digits alone when they are `width` or more. -/
def insertPadded (width : Nat) (fill : Char) (value : Nat) : List Char :=
  List.replicate (width - (Nat.toDigits 10 value).length) fill ++ Nat.toDigits 10 value

/-- The function `createOutputFilename` of lines 61-69, on the stem and the
extension of the input path (lines 62-63 take them from `std::filesystem`). -/
def createOutputFilename (stem extension : List Char) (partCount : Nat) : List Char :=
  stem ++ ['-'] ++ insertPadded 5 '0' partCount ++ extension

/-- The number a string of decimal digits denotes, leading zeros allowed. -/
def decimalValue (digits : List Char) : Nat :=
  digits.foldl (fun acc c => 10 * acc + (c.toNat - '0'.toNat)) 0

/-! ## The scan loop -/

theorem charStep_break (iq esc : Bool) (c : Char) :
    (charStep iq esc c).2.2 = true ↔ c = ';' ∧ iq = false ∧ esc = false := by
  unfold charStep
  cases iq <;> cases esc <;> by_cases h1 : c = '\\' <;> by_cases h2 : c = '\'' <;>
    by_cases h3 : c = ';' <;> simp_all

theorem scanLoop_cons (c : Char) (cs st : List Char) (iq esc : Bool) :
    scanLoop (c :: cs) st iq esc =
      if (charStep iq esc c).2.2 = true then .stmt (st ++ [c]) ⟨cs, true⟩
      else if (st ++ [c]).length > statementCeiling then .tooLong
      else scanLoop cs (st ++ [c]) (charStep iq esc c).1 (charStep iq esc c).2.1 := by
  rw [scanLoop]
  rcases h : charStep iq esc c with ⟨a, b, brk⟩
  cases brk <;> simp

/-- The scan loop appends to `singleStatement` exactly the bytes it takes from
the stream; it leaves the stream good only after a byte was taken, and failed
only when nothing is left. -/
theorem scanLoop_consumes : ∀ (cs st : List Char) (iq esc : Bool) (st' : List Char) (s' : Stream),
    scanLoop cs st iq esc = .stmt st' s' →
      ∃ pre, st' = st ++ pre ∧ cs = pre ++ s'.rest ∧
        (s'.good = false → s'.rest = []) ∧ (s'.good = true → pre ≠ []) := by
  intro cs
  induction cs with
  | nil =>
    intro st iq esc st' s' h
    simp only [scanLoop, ScanResult.stmt.injEq] at h
    obtain ⟨rfl, rfl⟩ := h
    exact ⟨[], by simp⟩
  | cons c cs ih =>
    intro st iq esc st' s' h
    rw [scanLoop_cons] at h
    split at h
    · simp only [ScanResult.stmt.injEq] at h
      obtain ⟨rfl, rfl⟩ := h
      exact ⟨[c], by simp⟩
    · split at h
      · cases h
      · obtain ⟨pre, h1, h2, h3, h4⟩ := ih _ _ _ _ _ h
        refine ⟨c :: pre, ?_, ?_, h3, by simp⟩
        · simp [h1]
        · simp [h2]

theorem scan_consumes {cs st : List Char} {s' : Stream} (h : scan cs = .stmt st s') :
    cs = st ++ s'.rest ∧ (s'.good = false → s'.rest = []) ∧ (s'.good = true → st ≠ []) := by
  obtain ⟨pre, h1, h2, h3, h4⟩ := scanLoop_consumes _ _ _ _ _ _ h
  simp only [List.nil_append] at h1
  subst h1
  exact ⟨h2, h3, h4⟩

theorem scan_failed_eq {cs st : List Char} {s' : Stream} (h : scan cs = .stmt st s')
    (hg : s'.good = false) : s' = ⟨[], false⟩ := by
  obtain ⟨_, h2, _⟩ := scan_consumes h
  cases s' with
  | mk r g => simp_all

theorem scan_good_lt {cs st : List Char} {s' : Stream} (h : scan cs = .stmt st s')
    (hg : s'.good = true) : s'.rest.length < cs.length := by
  obtain ⟨h1, _, h3⟩ := scan_consumes h
  have : 0 < st.length := List.length_pos.2 (h3 hg)
  rw [h1, List.length_append]
  omega

/-! ## Successive scans -/

theorem scansTo_cons {s t : Stream} {st : List Char} {stmts : List (List Char)} :
    ScansTo s (st :: stmts) t ↔
      s.good = true ∧ ∃ s', scan s.rest = .stmt st s' ∧ ScansTo s' stmts t := by
  rw [ScansTo]
  cases h : scan s.rest with
  | tooLong => simp
  | stmt st' s' =>
    simp only [ScanResult.stmt.injEq]
    constructor
    · rintro ⟨hg, rfl, hs⟩
      exact ⟨hg, s', ⟨rfl, rfl⟩, hs⟩
    · rintro ⟨hg, s'', ⟨rfl, rfl⟩, hs⟩
      exact ⟨hg, rfl, hs⟩

theorem scansTo_nil {s t : Stream} : ScansTo s [] t ↔ s = t := by
  rw [ScansTo]

theorem scansTo_append {A B : List (List Char)} : ∀ {s t : Stream},
    ScansTo s (A ++ B) t ↔ ∃ m, ScansTo s A m ∧ ScansTo m B t := by
  induction A with
  | nil =>
    intro s t
    simp [scansTo_nil]
  | cons a A ih =>
    intro s t
    simp only [List.cons_append, scansTo_cons, ih]
    constructor
    · rintro ⟨hg, s', h1, m, h2, h3⟩
      exact ⟨m, ⟨hg, s', h1, h2⟩, h3⟩
    · rintro ⟨m, ⟨hg, s', h1, h2⟩, h3⟩
      exact ⟨hg, s', h1, m, h2, h3⟩

/-- The scanner is a function of the stream: a run of scans that reaches the
end of the input starts with every shorter run of scans. -/
theorem scansTo_prefix {A : List (List Char)} : ∀ {s m e : Stream} {stmts : List (List Char)},
    ScansTo s A m → ScansTo s stmts e → e.good = false →
      ∃ B, stmts = A ++ B ∧ ScansTo m B e := by
  induction A with
  | nil =>
    intro s m e stmts h1 h2 _
    rw [scansTo_nil] at h1
    subst h1
    exact ⟨stmts, rfl, h2⟩
  | cons a A ih =>
    intro s m e stmts h1 h2 he
    rw [scansTo_cons] at h1
    obtain ⟨hg, s', hs, h1⟩ := h1
    cases stmts with
    | nil =>
      rw [scansTo_nil] at h2
      subst h2
      rw [hg] at he
      cases he
    | cons b stmts =>
      rw [scansTo_cons] at h2
      obtain ⟨_, s'', hs', h2⟩ := h2
      rw [hs] at hs'
      simp only [ScanResult.stmt.injEq] at hs'
      obtain ⟨rfl, rfl⟩ := hs'
      obtain ⟨B, rfl, hB⟩ := ih h1 h2 he
      exact ⟨B, rfl, hB⟩

/-- Successive scans take the statements off the front of the unread bytes. -/
theorem scansTo_consumes {stmts : List (List Char)} : ∀ {s t : Stream},
    ScansTo s stmts t → s.rest = stmts.flatten ++ t.rest := by
  induction stmts with
  | nil =>
    intro s t h
    rw [scansTo_nil] at h
    simp [h]
  | cons a stmts ih =>
    intro s t h
    rw [scansTo_cons] at h
    obtain ⟨_, s', hs, h⟩ := h
    rw [(scan_consumes hs).1, ih h]
    simp

/-- After at least one scan a good stream has fewer unread bytes. -/
theorem scansTo_good_lt {stmts : List (List Char)} : ∀ {s t : Stream},
    ScansTo s stmts t → stmts ≠ [] → t.good = true → t.rest.length < s.rest.length := by
  induction stmts with
  | nil => intro s t _ h; exact absurd rfl h
  | cons a stmts ih =>
    intro s t h _ ht
    rw [scansTo_cons] at h
    obtain ⟨_, s', hs, h⟩ := h
    cases stmts with
    | nil =>
      rw [scansTo_nil] at h
      subst h
      exact scan_good_lt hs ht
    | cons b stmts =>
      have h1 := ih h (by simp) ht
      have hg : s'.good = true := (scansTo_cons.1 h).1
      have h2 := scan_good_lt hs hg
      omega

/-- A failed stream reached by at least one scan is the exhausted stream. -/
theorem scansTo_failed_eq {stmts : List (List Char)} : ∀ {s t : Stream},
    ScansTo s stmts t → stmts ≠ [] → t.good = false → t = ⟨[], false⟩ := by
  induction stmts with
  | nil => intro s t _ h; exact absurd rfl h
  | cons a stmts ih =>
    intro s t h _ ht
    rw [scansTo_cons] at h
    obtain ⟨_, s', hs, h⟩ := h
    cases stmts with
    | nil =>
      rw [scansTo_nil] at h
      subst h
      exact scan_failed_eq hs ht
    | cons b stmts => exact ih h (by simp) ht

theorem carried_nil : carried [] = [] := by simp [carried]

theorem carried_of_ne {l : List Char} (h : l ≠ []) : carried l = [l] := by simp [carried, h]

theorem carried_flatten (l : List Char) : (carried l).flatten = l := by
  by_cases h : l = []
  · simp [carried, h]
  · simp [carried, h]

/-! ## The progress display -/

theorem droppedBits_spec : ∀ (budget n : Nat), n < 2 ^ budget →
    (n < 2 ^ 24 ∧ droppedBits budget n = 0) ∨
      (2 ^ (23 + droppedBits budget n) ≤ n ∧ n < 2 ^ (24 + droppedBits budget n) ∧
        0 < droppedBits budget n) := by
  intro budget
  induction budget with
  | zero =>
    intro n h
    left
    simp at h
    subst h
    exact ⟨by decide, rfl⟩
  | succ budget ih =>
    intro n h
    rw [droppedBits]
    split
    · rename_i hlt
      exact Or.inl ⟨hlt, rfl⟩
    · rename_i hge
      right
      have hhalf : n / 2 < 2 ^ budget := by
        rw [pow_succ] at h
        omega
      rcases ih (n / 2) hhalf with ⟨h1, h2⟩ | ⟨h1, h2, h3⟩
      · rw [h2]
        refine ⟨by omega, by omega, by omega⟩
      · generalize droppedBits budget (n / 2) = s at h1 h2 h3
        have e1 : 2 ^ (23 + (s + 1)) = 2 * 2 ^ (23 + s) := by rw [← Nat.add_assoc, pow_succ]; ring
        have e2 : 2 ^ (24 + (s + 1)) = 2 * 2 ^ (24 + s) := by rw [← Nat.add_assoc, pow_succ]; ring
        rw [e1, e2]
        refine ⟨by omega, by omega, by omega⟩

theorem shift_cases (n : Nat) :
    (n < 2 ^ 24 ∧ droppedBits n n = 0) ∨
      (2 ^ (23 + droppedBits n n) ≤ n ∧ n < 2 ^ (24 + droppedBits n n) ∧
        0 < droppedBits n n) :=
  droppedBits_spec n n (Nat.lt_two_pow n)

theorem shift_bounds (n : Nat) (hs : droppedBits n n ≠ 0) :
    2 ^ (23 + droppedBits n n) ≤ n ∧ n < 2 ^ (24 + droppedBits n n) := by
  rcases shift_cases n with ⟨_, h⟩ | ⟨h1, h2, _⟩
  · exact absurd h hs
  · exact ⟨h1, h2⟩

theorem roundToFloat_small (n : Nat) (h : n < 2 ^ 24) : roundToFloat n = n := by
  have hs : droppedBits n n = 0 := by
    rcases shift_cases n with ⟨_, h0⟩ | ⟨h1, _, _⟩
    · exact h0
    · have : 2 ^ 24 ≤ 2 ^ (23 + droppedBits n n) := Nat.pow_le_pow_right (by decide) (by omega)
      omega
  simp [roundToFloat, hs, Nat.mod_one]

theorem roundToFloat_le (n a k : Nat) (ha : a ≤ 2 ^ 24) (h : n ≤ a * 2 ^ k) :
    roundToFloat n ≤ a * 2 ^ k := by
  unfold roundToFloat
  generalize hsdef : droppedBits n n = s
  by_cases hs : s = 0
  · subst hs
    simp [Nat.mod_one]
    exact h
  · have hb := shift_bounds n (by rw [hsdef]; exact hs)
    rw [hsdef] at hb
    obtain ⟨hlo, hhi⟩ := hb
    have hP : 0 < 2 ^ s := Nat.two_pow_pos _
    have hdm := Nat.div_add_mod n (2 ^ s)
    have hr := Nat.mod_lt n hP
    simp only
    split
    · rename_i hup
      have hrpos : 0 < n % 2 ^ s := by
        rcases hup with h1 | ⟨h1, _⟩ <;> omega
      by_cases hk : s ≤ k
      · obtain ⟨d, rfl⟩ := Nat.exists_eq_add_of_le hk
        have hY : a * 2 ^ (s + d) = (a * 2 ^ d) * 2 ^ s := by
          rw [pow_add]; ring
        rw [hY] at h ⊢
        apply Nat.mul_le_mul_right
        have : n / 2 ^ s * 2 ^ s < (a * 2 ^ d) * 2 ^ s := by
          have : n / 2 ^ s * 2 ^ s < n := by
            rw [Nat.mul_comm]; omega
          omega
        exact Nat.lt_of_mul_lt_mul_right this
      · exfalso
        have hk' : k + 1 ≤ s := by omega
        have h1 : a * 2 ^ k ≤ 2 ^ 24 * 2 ^ k := Nat.mul_le_mul_right _ ha
        have h2 : 2 ^ 24 * 2 ^ k ≤ 2 ^ (23 + s) := by
          rw [← pow_add]
          exact Nat.pow_le_pow_right (by decide) (by omega)
        have h3 : n = 2 ^ (23 + s) := by omega
        have h4 : n % 2 ^ s = 0 := by
          rw [h3, pow_add]
          exact Nat.mul_mod_left _ _
        omega
    · have : n / 2 ^ s * 2 ^ s ≤ n := Nat.div_mul_le_self n (2 ^ s)
      omega

theorem roundToFloat_representable (n : Nat) :
    ∃ a k, roundToFloat n = a * 2 ^ k ∧ a ≤ 2 ^ 24 := by
  unfold roundToFloat
  have hq : n / 2 ^ droppedBits n n < 2 ^ 24 := by
    rcases shift_cases n with ⟨h1, h2⟩ | ⟨_, h2, _⟩
    · rw [h2]
      simpa using h1
    · rw [Nat.div_lt_iff_lt_mul (Nat.two_pow_pos _), ← pow_add]
      exact h2
  generalize droppedBits n n = s at hq
  simp only
  split
  · exact ⟨_, s, rfl, hq⟩
  · exact ⟨_, s, rfl, by omega⟩

theorem droppedBits_mono {c m : Nat} (h : c ≤ m) : droppedBits c c ≤ droppedBits m m := by
  by_contra hlt
  have hc0 : droppedBits c c ≠ 0 := by omega
  obtain ⟨hlo, _⟩ := shift_bounds c hc0
  rcases shift_cases m with ⟨h1, h2⟩ | ⟨_, h2, _⟩
  · have : 2 ^ 24 ≤ 2 ^ (23 + droppedBits c c) := Nat.pow_le_pow_right (by decide) (by omega)
    omega
  · have : 2 ^ (24 + droppedBits m m) ≤ 2 ^ (23 + droppedBits c c) :=
      Nat.pow_le_pow_right (by decide) (by omega)
    omega

theorem roundToFloat_mono {c m : Nat} (h : c ≤ m) : roundToFloat c ≤ roundToFloat m := by
  by_cases hsame : droppedBits c c = droppedBits m m
  · unfold roundToFloat
    rw [hsame]
    generalize droppedBits m m = s
    have hP : 0 < 2 ^ s := Nat.two_pow_pos _
    have hq : c / 2 ^ s ≤ m / 2 ^ s := Nat.div_le_div_right h
    have hc := Nat.div_add_mod c (2 ^ s)
    have hm := Nat.div_add_mod m (2 ^ s)
    have hrc := Nat.mod_lt c hP
    have hrm := Nat.mod_lt m hP
    simp only
    rcases Nat.lt_or_ge (c / 2 ^ s) (m / 2 ^ s) with hlt | hge
    · have h1 : (c / 2 ^ s + 1) * 2 ^ s ≤ m / 2 ^ s * 2 ^ s :=
        Nat.mul_le_mul_right _ hlt
      have h2 : c / 2 ^ s * 2 ^ s ≤ (c / 2 ^ s + 1) * 2 ^ s :=
        Nat.mul_le_mul_right _ (by omega)
      have h3 : m / 2 ^ s * 2 ^ s ≤ (m / 2 ^ s + 1) * 2 ^ s :=
        Nat.mul_le_mul_right _ (by omega)
      split <;> split <;> omega
    · have heq : c / 2 ^ s = m / 2 ^ s := by omega
      have hr : c % 2 ^ s ≤ m % 2 ^ s := by
        rw [heq] at hc
        have : 2 ^ s * (m / 2 ^ s) + c % 2 ^ s ≤ 2 ^ s * (m / 2 ^ s) + m % 2 ^ s := by
          rw [hc, hm]; exact h
        omega
      rw [heq]
      have h3 : m / 2 ^ s * 2 ^ s ≤ (m / 2 ^ s + 1) * 2 ^ s :=
        Nat.mul_le_mul_right _ (by omega)
      split
      · rename_i hup
        split
        · exact le_refl _
        · rename_i hnup
          exfalso
          apply hnup
          rcases hup with h1 | ⟨h1, h2⟩
          · left; omega
          · rcases Nat.lt_or_ge (c % 2 ^ s) (m % 2 ^ s) with h5 | h5
            · left; omega
            · right
              have : c % 2 ^ s = m % 2 ^ s := by omega
              rw [← this]
              exact ⟨h1, h2⟩
      · split
        · exact h3
        · exact le_refl _
  · have hlog := droppedBits_mono h
    have hlt : droppedBits c c < droppedBits m m := by omega
    have hsm : droppedBits m m ≠ 0 := by omega
    obtain ⟨hlo, _⟩ := shift_bounds m hsm
    have h1 : roundToFloat c ≤ 2 ^ 24 * 2 ^ (droppedBits c c) := by
      apply roundToFloat_le _ _ _ (le_refl _)
      rw [← pow_add]
      rcases shift_cases c with ⟨hc1, hc2⟩ | ⟨_, hc2, _⟩
      · have : 2 ^ 24 ≤ 2 ^ (24 + droppedBits c c) :=
          Nat.pow_le_pow_right (by decide) (by omega)
        omega
      · omega
    have h2 : 2 ^ 24 * 2 ^ (droppedBits c c) ≤ 2 ^ (23 + (droppedBits m m)) := by
      rw [← pow_add]
      exact Nat.pow_le_pow_right (by decide) (by omega)
    have h3 : 2 ^ (23 + (droppedBits m m)) ≤ roundToFloat m := by
      unfold roundToFloat
      generalize droppedBits m m = s at hlo
      have hq : 2 ^ 23 ≤ m / 2 ^ s := by
        rw [Nat.le_div_iff_mul_le (Nat.two_pow_pos _), ← pow_add]
        exact hlo
      have h4 : 2 ^ 23 * 2 ^ s ≤ m / 2 ^ s * 2 ^ s := Nat.mul_le_mul_right _ hq
      have h5 : m / 2 ^ s * 2 ^ s ≤ (m / 2 ^ s + 1) * 2 ^ s :=
        Nat.mul_le_mul_right _ (by omega)
      rw [pow_add]
      simp only
      split <;> omega
    omega

theorem roundToFloat_pos {m : Nat} (h : 0 < m) : 0 < roundToFloat m := by
  have h1 : roundToFloat 1 ≤ roundToFloat m := roundToFloat_mono h
  rw [roundToFloat_small 1 (by decide)] at h1
  exact h1

/-- The quotient of a size by a size at least as large is at most 1. -/
theorem floatRatio_le_one (c m : Nat) (hc : c ≤ m) (hm : 0 < m) :
    floatRatio c m ≤ 2 ^ 128 := by
  unfold floatRatio
  have hle := roundToFloat_mono hc
  have hpos := roundToFloat_pos hm
  generalize roundToFloat c = fc at hle
  generalize roundToFloat m = fm at hle hpos
  simp only
  have hd : fc * 2 ^ 127 ≤ fm * 2 ^ 127 := Nat.mul_le_mul_right _ hle
  have hq : fc * 2 ^ 127 / fm ≤ 2 ^ 127 := by
    apply Nat.div_le_of_le_mul
    exact hd
  have hN : 2 * (fc * 2 ^ 127 / fm) + (if fc * 2 ^ 127 % fm = 0 then 0 else 1) ≤
      1 * 2 ^ 128 := by
    split
    · omega
    · rename_i hrem
      have hlt : fc * 2 ^ 127 / fm < 2 ^ 127 := by
        by_contra hge
        have heq : fc * 2 ^ 127 / fm = 2 ^ 127 := by omega
        have h1 := Nat.div_mul_le_self (fc * 2 ^ 127) fm
        rw [heq] at h1
        have h2 : fc * 2 ^ 127 = fm * 2 ^ 127 := by
          rw [Nat.mul_comm (2 ^ 127) fm] at h1
          omega
        apply hrem
        rw [h2]
        exact Nat.mul_mod_right _ _
      omega
  have := roundToFloat_le _ 1 128 (by decide) hN
  simpa using this

/-- The progress display returns when the limit is not zero, the block is within
the limit, and the bar width is one that the conversion to `float` does not
round up and that a string can have. -/
theorem outputStatistics_returns (c m w : Nat) (hm : 0 < m) (hc : c ≤ m)
    (hw : roundToFloat w ≤ w) (hs : w ≤ stringMaxSize) : outputStatistics c m w = true := by
  have hr := floatRatio_le_one c m hc hm
  obtain ⟨a, k, hrep, ha⟩ := roundToFloat_representable w
  have hP : roundToFloat (floatRatio c m * roundToFloat w) ≤ a * 2 ^ (k + 128) := by
    apply roundToFloat_le _ _ _ ha
    rw [hrep, pow_add]
    calc floatRatio c m * (a * 2 ^ k) ≤ 2 ^ 128 * (a * 2 ^ k) := Nat.mul_le_mul_right _ hr
      _ = a * (2 ^ k * 2 ^ 128) := by ring
  have hbar : roundToFloat (floatRatio c m * roundToFloat w) / 2 ^ 128 ≤ w := by
    apply le_trans _ hw
    apply Nat.div_le_of_le_mul
    have h2 : a * 2 ^ (k + 128) = 2 ^ 128 * roundToFloat w := by
      rw [hrep, pow_add]; ring
    rw [← h2]
    exact hP
  have hsz : stringMaxSize < 2 ^ 64 := by decide
  unfold outputStatistics
  rw [if_neg (by omega)]
  generalize roundToFloat (floatRatio c m * roundToFloat w) / 2 ^ 128 = maxBar at hbar
  have hmod : (w + 2 ^ 64 - maxBar) % 2 ^ 64 = w - maxBar := by
    have : w + 2 ^ 64 - maxBar = 2 ^ 64 + (w - maxBar) := by omega
    rw [this, Nat.add_mod_left, Nat.mod_eq_of_lt (by omega)]
  simp only [hmod, Bool.and_eq_true, decide_eq_true_eq]
  refine ⟨⟨by omega, by omega⟩, by omega⟩

theorem outputStatistics_zero (c w : Nat) : outputStatistics c 0 w = false := by
  simp [outputStatistics]

/-! ## The statement loop -/

theorem statementLoop_succ (maxByteSize w budget : Nat) (s : Stream) (block : List Char) :
    statementLoop maxByteSize w (budget + 1) s block =
      if s.good = true then
        match scan s.rest with
        | .tooLong => some (.failed .MaxByteSizeExceeded)
        | .stmt single after =>
          if outputStatistics block.length maxByteSize w = false then some .aborted
          else if single.length > maxByteSize then some (.failed .MaxByteSizeExceeded)
          else if block.length + single.length > maxByteSize then
            some (.left block single after)
          else statementLoop maxByteSize w budget after (block ++ single)
      else some (.left block [] s) := by
  rw [statementLoop]

/-- The statement loop ends within its budget when the budget is the number of
unread bytes plus two. -/
theorem statementLoop_returns (maxByteSize w : Nat) : ∀ (budget : Nat) (s : Stream)
    (block : List Char), (if s.good = true then s.rest.length + 2 else 1) ≤ budget →
      ∃ r, statementLoop maxByteSize w budget s block = some r := by
  intro budget
  induction budget with
  | zero =>
    intro s block h
    split at h <;> omega
  | succ budget ih =>
    intro s block h
    rw [statementLoop_succ]
    by_cases hg : s.good = true
    · simp only [hg, if_true] at h ⊢
      cases hs : scan s.rest with
      | tooLong => exact ⟨_, rfl⟩
      | stmt single after =>
        simp only
        split
        · exact ⟨_, rfl⟩
        · split
          · exact ⟨_, rfl⟩
          · split
            · exact ⟨_, rfl⟩
            · apply ih
              by_cases ha : after.good = true
              · have := scan_good_lt hs ha
                simp only [ha, if_true]
                omega
              · simp only [ha]
                simp only [Bool.false_eq_true, if_false]
                omega
    · simp only [hg]
      exact ⟨_, rfl⟩

/-- The statement loop when it is left: the block grew by a run of scanned
statements, every one of them and the block within the limit; the statement
that did not fit, if any, is in `lastReadStatement`. -/
theorem statementLoop_left (maxByteSize w : Nat) : ∀ (budget : Nat) (s : Stream)
    (block block' last : List Char) (s' : Stream),
    statementLoop maxByteSize w budget s block = some (.left block' last s') →
    block.length ≤ maxByteSize →
      ∃ run, ScansTo s (run ++ carried last) s' ∧ block' = block ++ run.flatten ∧
        block'.length ≤ maxByteSize ∧ last.length ≤ maxByteSize ∧
        (∀ st ∈ run, st.length ≤ maxByteSize) ∧
        (last ≠ [] → block'.length + last.length > maxByteSize) ∧
        (last = [] → s'.good = false) ∧
        (s.good = true → run ++ carried last ≠ [] ∧ (block = [] → run ≠ [])) := by
  intro budget
  induction budget with
  | zero => intro s block block' last s' h; simp [statementLoop] at h
  | succ budget ih =>
    intro s block block' last s' h hb
    rw [statementLoop_succ] at h
    by_cases hg : s.good = true
    · simp only [hg, if_true] at h
      cases hs : scan s.rest with
      | tooLong => simp [hs] at h
      | stmt single after =>
        simp only [hs] at h
        split at h
        · simp at h
        · split at h
          · simp at h
          · rename_i h1
            split at h
            · rename_i h2
              simp only [Option.some.injEq, LoopResult.left.injEq] at h
              obtain ⟨rfl, rfl, rfl⟩ := h
              have hne : single ≠ [] := by
                intro h0
                simp [h0] at h2
                omega
              refine ⟨[], ?_, by simp, hb, by omega, by simp, fun _ => h2,
                fun h0 => absurd h0 hne, ?_⟩
              · rw [carried_of_ne hne, List.nil_append, scansTo_cons]
                exact ⟨hg, _, hs, scansTo_nil.2 rfl⟩
              · intro _
                refine ⟨by simp [carried_of_ne hne], fun h0 => ?_⟩
                simp [h0] at h2
                omega
            · rename_i h2
              have hb' : (block ++ single).length ≤ maxByteSize := by
                rw [List.length_append]; omega
              obtain ⟨run, r1, r2, r3, r4, r5, r6, r7, _⟩ := ih _ _ _ _ _ h hb'
              refine ⟨single :: run, ?_, ?_, r3, r4, ?_, r6, r7, fun _ => by simp⟩
              · rw [List.cons_append, scansTo_cons]
                exact ⟨hg, _, hs, r1⟩
              · simp [r2]
              · intro st hst
                rcases List.mem_cons.1 hst with rfl | hst
                · omega
                · exact r5 st hst
    · simp only [hg] at h
      simp only [Bool.false_eq_true, if_false, Option.some.injEq, LoopResult.left.injEq] at h
      obtain ⟨rfl, rfl, rfl⟩ := h
      refine ⟨[], ?_, by simp, hb, by simp, by simp, by simp, fun _ => by simpa using hg,
        fun h0 => absurd h0 hg⟩
      simp [carried_nil, scansTo_nil]

/-- The statement loop when it returns from inside: the status is
`MaxByteSizeExceeded`, and after a run of statements within the limit the next
scan stopped at the ceiling or gave a statement over the limit. -/
theorem statementLoop_failed (maxByteSize w : Nat) : ∀ (budget : Nat) (s : Stream)
    (block : List Char) (status : ReturnValues),
    statementLoop maxByteSize w budget s block = some (.failed status) →
      status = .MaxByteSizeExceeded ∧
      ∃ run t, ScansTo s run t ∧ t.good = true ∧ (∀ st ∈ run, st.length ≤ maxByteSize) ∧
        (scan t.rest = .tooLong ∨
          ∃ st t', scan t.rest = .stmt st t' ∧ st.length > maxByteSize) := by
  intro budget
  induction budget with
  | zero => intro s block status h; simp [statementLoop] at h
  | succ budget ih =>
    intro s block status h
    rw [statementLoop_succ] at h
    by_cases hg : s.good = true
    · simp only [hg, if_true] at h
      cases hs : scan s.rest with
      | tooLong =>
        simp only [hs, Option.some.injEq, LoopResult.failed.injEq] at h
        exact ⟨h.symm, [], s, scansTo_nil.2 rfl, hg, by simp, Or.inl hs⟩
      | stmt single after =>
        simp only [hs] at h
        split at h
        · simp at h
        · split at h
          · rename_i h1
            simp only [Option.some.injEq, LoopResult.failed.injEq] at h
            exact ⟨h.symm, [], s, scansTo_nil.2 rfl, hg, by simp, Or.inr ⟨_, _, hs, h1⟩⟩
          · rename_i h1
            split at h
            · simp at h
            · obtain ⟨e, run, t, r1, r2, r3, r4⟩ := ih _ _ _ h
              refine ⟨e, single :: run, t, ?_, r2, ?_, r4⟩
              · rw [scansTo_cons]
                exact ⟨hg, _, hs, r1⟩
              · intro st hst
                rcases List.mem_cons.1 hst with rfl | hst
                · omega
                · exact r3 st hst
    · simp [hg] at h

/-- The statement loop when the progress display throws: the call of line 131
did not return for a block within the limit. -/
theorem statementLoop_aborted (maxByteSize w : Nat) : ∀ (budget : Nat) (s : Stream)
    (block : List Char),
    statementLoop maxByteSize w budget s block = some .aborted →
    block.length ≤ maxByteSize →
      ∃ c, c ≤ maxByteSize ∧ outputStatistics c maxByteSize w = false := by
  intro budget
  induction budget with
  | zero => intro s block h; simp [statementLoop] at h
  | succ budget ih =>
    intro s block h hb
    rw [statementLoop_succ] at h
    by_cases hg : s.good = true
    · simp only [hg, if_true] at h
      cases hs : scan s.rest with
      | tooLong => simp [hs] at h
      | stmt single after =>
        simp only [hs] at h
        split at h
        · rename_i hthrow
          exact ⟨_, hb, hthrow⟩
        · split at h
          · simp at h
          · split at h
            · simp at h
            · exact ih _ _ h (by rw [List.length_append]; omega)
    · simp [hg] at h

/-! ## The chunk loop -/

theorem chunkLoop_succ (env : Env) (maxByteSize w budget partCount : Nat) (s : Stream)
    (last : List Char) (created : List Nat) (written : List (List Char)) :
    chunkLoop env maxByteSize w (budget + 1) partCount s last created written =
      if env.outputOpens partCount = false then
        some ⟨.returned .CanNotOpenForWrite, created, written, last⟩
      else
        match statementLoop maxByteSize w (s.rest.length + 2) s last with
        | none => none
        | some (.failed status) => some ⟨.returned status, created ++ [partCount], written, []⟩
        | some .aborted => some ⟨.aborted, created ++ [partCount], written, []⟩
        | some (.left block last' after) =>
          if outputStatistics block.length maxByteSize w = false then
            some ⟨.aborted, created ++ [partCount], written, last'⟩
          else if env.writeSucceeds partCount = false then
            some ⟨.returned .CanNotWrite, created ++ [partCount], written, last'⟩
          else if after.good = false then
            some ⟨.returned .Success, created ++ [partCount], written ++ [block], last'⟩
          else
            chunkLoop env maxByteSize w budget (partCount + 1) after last'
              (created ++ [partCount]) (written ++ [block]) := by
  rw [chunkLoop]

theorem statementLoop_budget (maxByteSize w : Nat) (s : Stream) (block : List Char) :
    ∃ r, statementLoop maxByteSize w (s.rest.length + 2) s block = some r := by
  apply statementLoop_returns
  split <;> omega

/-- The chunk loop ends within its budget when the budget is the number of
unread bytes plus one. -/
theorem chunkLoop_returns (env : Env) (maxByteSize w : Nat) : ∀ (budget partCount : Nat)
    (s : Stream) (last : List Char) (created : List Nat) (written : List (List Char)),
    s.rest.length + 1 ≤ budget → last.length ≤ maxByteSize →
      ∃ o, chunkLoop env maxByteSize w budget partCount s last created written = some o := by
  intro budget
  induction budget with
  | zero => intro pc s last created written h; omega
  | succ budget ih =>
    intro pc s last created written h hl
    rw [chunkLoop_succ]
    split
    · exact ⟨_, rfl⟩
    · obtain ⟨r, hr⟩ := statementLoop_budget maxByteSize w s last
      rw [hr]
      cases r with
      | failed status => exact ⟨_, rfl⟩
      | aborted => exact ⟨_, rfl⟩
      | left block last' after =>
        simp only
        split
        · exact ⟨_, rfl⟩
        · split
          · exact ⟨_, rfl⟩
          · split
            · exact ⟨_, rfl⟩
            · rename_i hgood
              have ha : after.good = true := by simpa using hgood
              obtain ⟨run, r1, _, _, r4, _, _, _, r8⟩ :=
                statementLoop_left _ _ _ _ _ _ _ _ hr hl
              apply ih _ _ _ _ _ _ r4
              by_cases hg : s.good = true
              · have := scansTo_good_lt r1 (r8 hg).1 ha
                omega
              · rw [statementLoop_succ] at hr
                simp only [hg] at hr
                simp only [Bool.false_eq_true, if_false, Option.some.injEq,
                  LoopResult.left.injEq] at hr
                obtain ⟨_, _, rfl⟩ := hr
                exact absurd ha hg

/-- The chunk loop, read as a grouping of scanned statements. Started on a good
stream with a carried statement within the limit, it writes the blocks of runs
`runs` of statements: the statements `carried last ++ X`, where `X` is what the
scanner yields from the stream, are those of `runs` followed by a remainder
`rem` that was not written. -/
theorem chunkLoop_runs (env : Env) (maxByteSize w : Nat) : ∀ (budget partCount : Nat)
    (s : Stream) (last : List Char) (created : List Nat) (written : List (List Char))
    (o : Outcome),
    chunkLoop env maxByteSize w budget partCount s last created written = some o →
    s.good = true → last.length ≤ maxByteSize →
      ∃ (runs : List (List (List Char))) (rem X : List (List Char)) (t : Stream),
        o.written = written ++ runs.map List.flatten ∧
        ScansTo s X t ∧
        carried last ++ X = runs.flatten ++ rem ∧
        (∀ r ∈ runs, r ≠ [] ∧ r.flatten.length ≤ maxByteSize ∧
          ∀ st ∈ r, st.length ≤ maxByteSize) ∧
        (∀ r, runs.head? = some r → carried last <+: r) ∧
        List.Chain' (ClosedBy maxByteSize) runs ∧
        (o.status = .returned .Success →
          rem = carried o.lastReadStatement ∧ t = ⟨[], false⟩ ∧ runs ≠ [] ∧
          o.lastReadStatement.length ≤ maxByteSize) ∧
        (o.status = .returned .MaxByteSizeExceeded →
          t.good = true ∧ (∀ st ∈ rem, st.length ≤ maxByteSize) ∧
          (scan t.rest = .tooLong ∨
            ∃ st t', scan t.rest = .stmt st t' ∧ st.length > maxByteSize)) := by
  intro budget
  induction budget with
  | zero => intro pc s last created written o h; simp [chunkLoop] at h
  | succ budget ih =>
    intro pc s last created written o h hg hl
    have hcl : ∀ st ∈ carried last, st.length ≤ maxByteSize := by
      intro st hst
      by_cases h0 : last = []
      · simp [carried, h0] at hst
      · simp only [carried_of_ne h0, List.mem_singleton] at hst
        subst hst
        exact hl
    rw [chunkLoop_succ] at h
    split at h
    · simp only [Option.some.injEq] at h
      subst h
      exact ⟨[], carried last, [], s, by simp, scansTo_nil.2 rfl, by simp, by simp, by simp,
        List.chain'_nil, by simp, by simp⟩
    · cases hr : statementLoop maxByteSize w (s.rest.length + 2) s last with
      | none => simp [hr] at h
      | some r =>
        cases r with
        | failed status =>
          simp only [hr, Option.some.injEq] at h
          subst h
          obtain ⟨e, run, t, r1, r2, r3, r4⟩ := statementLoop_failed _ _ _ _ _ _ hr
          subst e
          refine ⟨[], carried last ++ run, run, t, by simp, r1, by simp, by simp, by simp,
            List.chain'_nil, by simp, fun _ => ⟨r2, ?_, r4⟩⟩
          intro st hst
          rcases List.mem_append.1 hst with hst | hst
          · exact hcl st hst
          · exact r3 st hst
        | aborted =>
          simp only [hr, Option.some.injEq] at h
          subst h
          exact ⟨[], carried last, [], s, by simp, scansTo_nil.2 rfl, by simp, by simp, by simp,
            List.chain'_nil, by simp, by simp⟩
        | left block last' after =>
          simp only [hr] at h
          obtain ⟨run, r1, r2, r3, r4, r5, r6, r7, r8⟩ := statementLoop_left _ _ _ _ _ _ _ _ hr hl
          have hfl : (carried last ++ run).flatten = block := by
            rw [List.flatten_append, carried_flatten, r2]
          have hrun : carried last ++ run ≠ [] ∧
              (carried last ++ run).flatten.length ≤ maxByteSize ∧
              ∀ st ∈ carried last ++ run, st.length ≤ maxByteSize := by
            refine ⟨?_, by rw [hfl]; exact r3, ?_⟩
            · by_cases h0 : last = []
              · simpa [carried, h0] using (r8 hg).2 h0
              · simp [carried_of_ne h0]
            · intro st hst
              rcases List.mem_append.1 hst with hst | hst
              · exact hcl st hst
              · exact r5 st hst
          split at h
          · simp only [Option.some.injEq] at h
            subst h
            exact ⟨[], carried last ++ (run ++ carried last'), run ++ carried last', after,
              by simp, r1, by simp, by simp, by simp, List.chain'_nil, by simp, by simp⟩
          split at h
          · simp only [Option.some.injEq] at h
            subst h
            exact ⟨[], carried last ++ (run ++ carried last'), run ++ carried last', after,
              by simp, r1, by simp, by simp, by simp, List.chain'_nil, by simp, by simp⟩
          · split at h
            · rename_i hbad
              simp only [Option.some.injEq] at h
              subst h
              refine ⟨[carried last ++ run], carried last', run ++ carried last', after,
                by simp [hfl], r1, by simp, ?_, ?_, List.chain'_singleton _, ?_, by simp⟩
              · intro r hr'
                simp only [List.mem_singleton] at hr'
                subst hr'
                exact hrun
              · intro r hr'
                simp only [List.head?_cons, Option.some.injEq] at hr'
                subst hr'
                exact List.prefix_append _ _
              · intro _
                exact ⟨rfl, scansTo_failed_eq r1 (r8 hg).1 hbad, by simp, r4⟩
            · rename_i hgood
              have ha : after.good = true := by simpa using hgood
              have hne : last' ≠ [] := by
                intro h0
                rw [r7 h0] at ha
                cases ha
              obtain ⟨runs, rem, X, t, i1, i2, i3, i4, i5, i6, i7, i8⟩ :=
                ih _ _ _ _ _ _ h ha r4
              refine ⟨(carried last ++ run) :: runs, rem, (run ++ carried last') ++ X, t,
                ?_, ?_, ?_, ?_, ?_, ?_, ?_, i8⟩
              · rw [i1]
                simp [hfl]
              · exact scansTo_append.2 ⟨after, r1, i2⟩
              · simp only [List.flatten_cons, List.append_assoc, i3]
              · intro r hr'
                rcases List.mem_cons.1 hr' with rfl | hr'
                · exact hrun
                · exact i4 r hr'
              · intro r hr'
                simp only [List.head?_cons, Option.some.injEq] at hr'
                subst hr'
                exact List.prefix_append _ _
              · rw [List.chain'_cons']
                refine ⟨?_, i6⟩
                intro r hr'
                obtain ⟨more, hmore⟩ := i5 r (by simpa using hr')
                rw [carried_of_ne hne] at hmore
                have hr2 : r = last' :: more := by simpa using hmore.symm
                subst hr2
                show (carried last ++ run).flatten.length + last'.length > maxByteSize
                rw [hfl]
                exact r6 hne
              · intro hs
                obtain ⟨j1, j2, _, j4⟩ := i7 hs
                exact ⟨j1, j2, by simp, j4⟩

/-- The ways the chunk loop can end, with the file operation that failed or the
call of the progress display that threw when one did. -/
theorem chunkLoop_status (env : Env) (maxByteSize w : Nat) : ∀ (budget partCount : Nat)
    (s : Stream) (last : List Char) (created : List Nat) (written : List (List Char))
    (o : Outcome),
    chunkLoop env maxByteSize w budget partCount s last created written = some o →
    last.length ≤ maxByteSize →
      o.status = .returned .Success ∨ o.status = .returned .MaxByteSizeExceeded ∨
      (o.status = .returned .CanNotOpenForWrite ∧ ∃ n, env.outputOpens n = false) ∨
      (o.status = .returned .CanNotWrite ∧ ∃ n, env.writeSucceeds n = false) ∨
      (o.status = .aborted ∧ ∃ c, c ≤ maxByteSize ∧ outputStatistics c maxByteSize w = false) := by
  intro budget
  induction budget with
  | zero => intro pc s last created written o h; simp [chunkLoop] at h
  | succ budget ih =>
    intro pc s last created written o h hl
    rw [chunkLoop_succ] at h
    split at h
    · rename_i hopen
      simp only [Option.some.injEq] at h
      subst h
      exact Or.inr (Or.inr (Or.inl ⟨rfl, pc, hopen⟩))
    · cases hr : statementLoop maxByteSize w (s.rest.length + 2) s last with
      | none => simp [hr] at h
      | some r =>
        cases r with
        | failed status =>
          simp only [hr, Option.some.injEq] at h
          subst h
          have := (statementLoop_failed _ _ _ _ _ _ hr).1
          subst this
          exact Or.inr (Or.inl rfl)
        | aborted =>
          simp only [hr, Option.some.injEq] at h
          subst h
          exact Or.inr (Or.inr (Or.inr (Or.inr
            ⟨rfl, statementLoop_aborted _ _ _ _ _ hr hl⟩)))
        | left block last' after =>
          simp only [hr] at h
          obtain ⟨_, _, _, r3, r4, _⟩ := statementLoop_left _ _ _ _ _ _ _ _ hr hl
          split at h
          · rename_i hthrow
            simp only [Option.some.injEq] at h
            subst h
            exact Or.inr (Or.inr (Or.inr (Or.inr ⟨rfl, _, r3, hthrow⟩)))
          · split at h
            · rename_i hwrite
              simp only [Option.some.injEq] at h
              subst h
              exact Or.inr (Or.inr (Or.inr (Or.inl ⟨rfl, pc, hwrite⟩)))
            · split at h
              · simp only [Option.some.injEq] at h
                subst h
                exact Or.inl rfl
              · exact ih _ _ _ _ _ _ h r4

/-! ## `processFile` -/

/-- The function `processFile` ends on every input: the budget it hands to the
chunk loop is never used up. -/
theorem processFile_returns (env : Env) (input : List Char) (maxByteSize w : Nat) :
    ∃ o, processFile env input maxByteSize w = some o := by
  unfold processFile
  split
  · exact ⟨_, rfl⟩
  · exact chunkLoop_returns env maxByteSize w _ _ _ _ _ _ (by simp) (by simp)

/-- The blocks `processFile` writes are the blocks of runs of statements, and
these statements are the first ones the scanner yields on the input. -/
theorem processFile_runs (env : Env) (input : List Char) (maxByteSize w : Nat) (o : Outcome)
    (h : processFile env input maxByteSize w = some o) :
    ∃ (runs : List (List (List Char))) (rem : List (List Char)) (t : Stream),
      o.written = runs.map List.flatten ∧
      ScansTo ⟨input, true⟩ (runs.flatten ++ rem) t ∧
      (∀ r ∈ runs, r ≠ [] ∧ r.flatten.length ≤ maxByteSize ∧
        ∀ st ∈ r, st.length ≤ maxByteSize) ∧
      List.Chain' (ClosedBy maxByteSize) runs ∧
      (o.status = .returned .Success →
        rem = carried o.lastReadStatement ∧ t = ⟨[], false⟩ ∧ runs ≠ [] ∧
        o.lastReadStatement.length ≤ maxByteSize) ∧
      (o.status = .returned .MaxByteSizeExceeded →
        t.good = true ∧ (∀ st ∈ rem, st.length ≤ maxByteSize) ∧
        (scan t.rest = .tooLong ∨
          ∃ st t', scan t.rest = .stmt st t' ∧ st.length > maxByteSize)) := by
  unfold processFile at h
  split at h
  · simp only [Option.some.injEq] at h
    subst h
    exact ⟨[], [], ⟨input, true⟩, by simp, by simp [scansTo_nil], by simp, List.chain'_nil,
      by simp, by simp⟩
  · obtain ⟨runs, rem, X, t, i1, i2, i3, i4, _, i6, i7, i8⟩ :=
      chunkLoop_runs env maxByteSize w _ _ _ _ _ _ _ h rfl (by simp)
    rw [carried_nil, List.nil_append] at i3
    rw [i3] at i2
    exact ⟨runs, rem, t, by simpa using i1, i2, i4, i6, i7, i8⟩

/-- The scanner is a function of the input: what it yields up to exhaustion
starts with whatever a shorter run of scans yields. -/
theorem yields_prefix {input : List Char} {A stmts : List (List Char)} {t : Stream}
    (h : ScansTo ⟨input, true⟩ A t) (hS : Yields input stmts) :
    ∃ B, stmts = A ++ B ∧ ScansTo t B ⟨[], false⟩ :=
  scansTo_prefix h hS rfl

/-- From the exhausted stream the scanner yields nothing more. -/
theorem scansTo_exhausted {B : List (List Char)} {e : Stream}
    (h : ScansTo ⟨[], false⟩ B e) : B = [] := by
  cases B with
  | nil => rfl
  | cons b B =>
    rw [scansTo_cons] at h
    exact absurd h.1 (by simp)

/-! ## The termination rule of the scan loop -/

theorem flagsAfter_cons (iq esc : Bool) (c : Char) (cs : List Char) :
    flagsAfter iq esc (c :: cs) =
      flagsAfter (charStep iq esc c).1 (charStep iq esc c).2.1 cs := by
  rw [flagsAfter]

/-- The scan loop ends at the first `;` it reads with both flags down, when the
bytes before it stay within the ceiling. -/
theorem scanLoop_terminated : ∀ (p r st : List Char) (iq esc : Bool),
    flagsAfter iq esc p = (false, false) →
    (∀ q q', p = q ++ ';' :: q' → flagsAfter iq esc q ≠ (false, false)) →
    st.length + p.length ≤ statementCeiling →
      scanLoop (p ++ ';' :: r) st iq esc = .stmt (st ++ p ++ [';']) ⟨r, true⟩ := by
  intro p
  induction p with
  | nil =>
    intro r st iq esc hf _ _
    simp only [flagsAfter, Prod.mk.injEq] at hf
    obtain ⟨rfl, rfl⟩ := hf
    rw [List.nil_append, scanLoop_cons]
    have hb : (charStep false false ';').2.2 = true := (charStep_break _ _ _).2 ⟨rfl, rfl, rfl⟩
    simp [hb]
  | cons c p ih =>
    intro r st iq esc hf hmin hlen
    rw [flagsAfter_cons] at hf
    have hb : ¬ (charStep iq esc c).2.2 = true := by
      intro hb
      obtain ⟨rfl, rfl, rfl⟩ := (charStep_break _ _ _).1 hb
      exact hmin [] p rfl (by simp [flagsAfter])
    simp only [List.length_cons] at hlen
    have hlen' : ¬ (st ++ [c]).length > statementCeiling := by
      simp only [List.length_append, List.length_singleton]
      omega
    rw [List.cons_append, scanLoop_cons, if_neg hb, if_neg hlen', ih r _ _ _ hf]
    · simp
    · intro q q' hq
      have := hmin (c :: q) q' (by simp [hq])
      rwa [flagsAfter_cons] at this
    · simp only [List.length_append, List.length_singleton]
      omega

/-- The scan loop reads to the end of the input when it never reads a `;` with
both flags down and the input stays within the ceiling. -/
theorem scanLoop_unterminated : ∀ (cs st : List Char) (iq esc : Bool),
    (∀ q q', cs = q ++ ';' :: q' → flagsAfter iq esc q ≠ (false, false)) →
    st.length + cs.length ≤ statementCeiling →
      scanLoop cs st iq esc = .stmt (st ++ cs) ⟨[], false⟩ := by
  intro cs
  induction cs with
  | nil =>
    intro st iq esc _ _
    simp [scanLoop]
  | cons c cs ih =>
    intro st iq esc hmin hlen
    have hb : ¬ (charStep iq esc c).2.2 = true := by
      intro hb
      obtain ⟨rfl, rfl, rfl⟩ := (charStep_break _ _ _).1 hb
      exact hmin [] cs rfl (by simp [flagsAfter])
    simp only [List.length_cons] at hlen
    have hlen' : ¬ (st ++ [c]).length > statementCeiling := by
      simp only [List.length_append, List.length_singleton]
      omega
    rw [scanLoop_cons, if_neg hb, if_neg hlen', ih _ _ _]
    · simp
    · intro q q' hq
      have := hmin (c :: q) q' (by simp [hq])
      rwa [flagsAfter_cons] at this
    · simp only [List.length_append, List.length_singleton]
      omega

/-- The scan loop on a run of the byte `a`, which touches no flag: it stops at
the ceiling as soon as the statement would grow past it. -/
theorem scanLoop_replicate_tooLong : ∀ (n : Nat) (st : List Char),
    st.length ≤ statementCeiling → statementCeiling < st.length + n →
      scanLoop (List.replicate n 'a') st false false = .tooLong := by
  intro n
  induction n with
  | zero => intro st h1 h2; omega
  | succ n ih =>
    intro st h1 h2
    have hb : ¬ (charStep false false 'a').2.2 = true := by
      rw [charStep_break]
      simp
    have hc : charStep false false 'a' = (false, false, false) := by decide
    rw [List.replicate_succ, scanLoop_cons, if_neg hb]
    by_cases hlen : (st ++ ['a']).length > statementCeiling
    · rw [if_pos hlen]
    · rw [if_neg hlen, hc]
      apply ih
      · omega
      · simp only [List.length_append, List.length_singleton]
        omega

theorem scan_replicate_tooLong :
    scan (List.replicate (statementCeiling + 1) 'a') = .tooLong :=
  scanLoop_replicate_tooLong _ [] (by simp) (by simp)

/-- A split of the input at a `;` is determined by the position of that `;`. -/
theorem split_at_semicolon {input q r : List Char} (h : input = q ++ ';' :: r) :
    q = input.take q.length ∧ input[q.length]? = some ';' ∧ q.length < input.length := by
  subst h
  refine ⟨by simp, ?_, by simp⟩
  rw [List.getElem?_append_right (le_refl _)]
  simp

/-- The statement loop returns `MaxByteSizeExceeded` when the first scan stops
at the ceiling. -/
theorem statementLoop_tooLong (maxByteSize w budget : Nat) (s : Stream) (block : List Char)
    (hg : s.good = true) (hs : scan s.rest = .tooLong) :
    statementLoop maxByteSize w (budget + 1) s block =
      some (.failed .MaxByteSizeExceeded) := by
  rw [statementLoop_succ, if_pos hg, hs]

/-- The ways `processFile` can end, with the file operation that failed or the
call of the progress display that threw when one did. -/
theorem processFile_status (env : Env) (input : List Char) (maxByteSize w : Nat) (o : Outcome)
    (h : processFile env input maxByteSize w = some o) :
    (o.status = .returned .CanNotOpen ∧ env.inputOpens = false) ∨
    (env.inputOpens = true ∧
      (o.status = .returned .Success ∨ o.status = .returned .MaxByteSizeExceeded ∨
        (o.status = .returned .CanNotOpenForWrite ∧ ∃ n, env.outputOpens n = false) ∨
        (o.status = .returned .CanNotWrite ∧ ∃ n, env.writeSucceeds n = false) ∨
        (o.status = .aborted ∧
          ∃ c, c ≤ maxByteSize ∧ outputStatistics c maxByteSize w = false))) := by
  unfold processFile at h
  split at h
  · rename_i hin
    simp only [Option.some.injEq] at h
    subst h
    exact Or.inl ⟨rfl, hin⟩
  · rename_i hin
    exact Or.inr ⟨by simpa using hin,
      chunkLoop_status env maxByteSize w _ _ _ _ _ _ _ h (by simp)⟩

/-- The chunk loop returns `MaxByteSizeExceeded`, the file of the part created
and nothing written to it, when the first scan of the part stops at the
ceiling. -/
theorem chunkLoop_tooLong (env : Env) (maxByteSize w budget partCount : Nat) (s : Stream)
    (last : List Char) (created : List Nat) (written : List (List Char))
    (hopen : env.outputOpens partCount = true) (hg : s.good = true)
    (hs : scan s.rest = .tooLong) :
    chunkLoop env maxByteSize w (budget + 1) partCount s last created written =
      some ⟨.returned .MaxByteSizeExceeded, created ++ [partCount], written, []⟩ := by
  have h : statementLoop maxByteSize w (s.rest.length + 2) s last =
      some (.failed .MaxByteSizeExceeded) :=
    statementLoop_tooLong maxByteSize w (s.rest.length + 1) s last hg hs
  rw [chunkLoop_succ, h]
  simp [hopen]

/-- The scan loop does not stop at the ceiling when what it has and what is
unread stay within it together. -/
theorem scanLoop_within : ∀ (cs st : List Char) (iq esc : Bool),
    st.length + cs.length ≤ statementCeiling → scanLoop cs st iq esc ≠ .tooLong := by
  intro cs
  induction cs with
  | nil => intro st iq esc _; simp [scanLoop]
  | cons c cs ih =>
    intro st iq esc hlen
    simp only [List.length_cons] at hlen
    rw [scanLoop_cons]
    split
    · simp
    · have hlen' : ¬ (st ++ [c]).length > statementCeiling := by
        simp only [List.length_append, List.length_singleton]
        omega
      rw [if_neg hlen']
      apply ih
      simp only [List.length_append, List.length_singleton]
      omega

theorem yields_exists_of_le : ∀ (n : Nat) (input : List Char), input.length ≤ n →
    input.length ≤ statementCeiling → ∃ stmts, Yields input stmts := by
  intro n
  induction n with
  | zero =>
    intro input h _
    have h0 : input = [] := List.length_eq_zero.1 (by omega)
    subst h0
    exact ⟨[[]], by decide⟩
  | succ n ih =>
    intro input h hc
    cases hs : scan input with
    | tooLong => exact absurd hs (scanLoop_within input [] false false (by simpa using hc))
    | stmt st s' =>
      by_cases hg : s'.good = true
      · have hlt := scan_good_lt hs hg
        obtain ⟨stmts, hst⟩ := ih s'.rest (by omega) (by omega)
        refine ⟨st :: stmts, ?_⟩
        unfold Yields at hst ⊢
        rw [scansTo_cons]
        refine ⟨rfl, s', hs, ?_⟩
        have : s' = ⟨s'.rest, true⟩ := by
          cases s' with
          | mk r g => simp_all
        rw [this]
        exact hst
      · have hg' : s'.good = false := by simpa using hg
        refine ⟨[st], ?_⟩
        unfold Yields
        rw [scansTo_cons]
        exact ⟨rfl, s', hs, scansTo_nil.2 (scan_failed_eq hs hg')⟩

/-- On an input within the ceiling the scanner yields a sequence of statements
up to exhaustion. -/
theorem yields_exists (input : List Char) (h : input.length ≤ statementCeiling) :
    ∃ stmts, Yields input stmts :=
  yields_exists_of_le input.length input (le_refl _) h

/-! ## Decimal digits and the output filename -/

theorem digitChar_value (k : Nat) (h : k < 10) :
    (Nat.digitChar k).toNat - '0'.toNat = k ∧ (Nat.digitChar k).isDigit = true := by
  interval_cases k <;> decide

theorem decimalValue_append (a b : List Char) :
    decimalValue (a ++ b) =
      b.foldl (fun acc c => 10 * acc + (c.toNat - '0'.toNat)) (decimalValue a) := by
  simp [decimalValue, List.foldl_append]

theorem decimalValue_snoc (a : List Char) (c : Char) :
    decimalValue (a ++ [c]) = 10 * decimalValue a + (c.toNat - '0'.toNat) := by
  simp [decimalValue_append]

theorem decimalValue_zeros (k : Nat) (ds : List Char) :
    decimalValue (List.replicate k '0' ++ ds) = decimalValue ds := by
  have h : decimalValue (List.replicate k '0') = 0 := by
    induction k with
    | zero => rfl
    | succ k ih =>
      rw [List.replicate_succ', decimalValue_snoc, ih]
      rfl
  rw [decimalValue_append, h]
  rfl

theorem toDigitsCore_append : ∀ (fuel n : Nat) (ds : List Char),
    Nat.toDigitsCore 10 fuel n ds = Nat.toDigitsCore 10 fuel n [] ++ ds := by
  intro fuel
  induction fuel with
  | zero => intro n ds; simp [Nat.toDigitsCore]
  | succ fuel ih =>
    intro n ds
    simp only [Nat.toDigitsCore]
    split
    · simp
    · rw [ih _ (_ :: ds), ih _ [_]]
      simp

theorem toDigitsCore_value : ∀ (fuel n : Nat), n < fuel →
    decimalValue (Nat.toDigitsCore 10 fuel n []) = n ∧
      ∀ c ∈ Nat.toDigitsCore 10 fuel n [], c.isDigit = true := by
  intro fuel
  induction fuel with
  | zero => intro n h; omega
  | succ fuel ih =>
    intro n h
    have hd := digitChar_value (n % 10) (Nat.mod_lt _ (by decide))
    simp only [Nat.toDigitsCore]
    split
    · rename_i h0
      have hn : n % 10 = n := by omega
      refine ⟨?_, ?_⟩
      · have := decimalValue_snoc [] (Nat.digitChar (n % 10))
        simp only [List.nil_append] at this
        rw [this, hd.1]
        simp [decimalValue, hn]
      · intro c hc
        simp only [List.mem_singleton] at hc
        rw [hc]
        exact hd.2
    · rename_i h0
      have hlt : n / 10 < fuel := by omega
      obtain ⟨i1, i2⟩ := ih (n / 10) hlt
      rw [toDigitsCore_append]
      refine ⟨?_, ?_⟩
      · rw [decimalValue_snoc, i1, hd.1]
        omega
      · intro c hc
        rcases List.mem_append.1 hc with hc | hc
        · exact i2 c hc
        · simp only [List.mem_singleton] at hc
          rw [hc]
          exact hd.2

theorem toDigits_value (n : Nat) :
    decimalValue (Nat.toDigits 10 n) = n ∧ ∀ c ∈ Nat.toDigits 10 n, c.isDigit = true :=
  toDigitsCore_value (n + 1) n (by omega)

theorem isDigit_value_lt (c : Char) (h : c.isDigit = true) : c.toNat - '0'.toNat < 10 := by
  simp only [Char.isDigit, Bool.and_eq_true, decide_eq_true_eq] at h
  have h2 : c.val.toNat ≤ 57 := h.2
  show c.val.toNat - 48 < 10
  omega

theorem decimalValue_lt : ∀ (ds : List Char), (∀ c ∈ ds, c.isDigit = true) →
    decimalValue ds < 10 ^ ds.length := by
  intro ds
  induction ds using List.reverseRecOn with
  | nil => intro _; simp [decimalValue]
  | append_singleton ds c ih =>
    intro h
    have h1 := ih (fun x hx => h x (by simp [hx]))
    have h2 := isDigit_value_lt c (h c (by simp))
    rw [decimalValue_snoc, List.length_append, List.length_singleton, pow_succ]
    omega

theorem insertPadded_value (n : Nat) : decimalValue (insertPadded 5 '0' n) = n := by
  rw [insertPadded, decimalValue_zeros]
  exact (toDigits_value n).1

theorem createOutputFilename_injective (stem extension : List Char) :
    Function.Injective (createOutputFilename stem extension) := by
  intro m n h
  simp only [createOutputFilename, List.append_assoc, List.append_cancel_left_eq] at h
  have h2 := List.append_cancel_right h
  have := congrArg decimalValue h2
  rwa [insertPadded_value, insertPadded_value] at this

theorem toDigits_length_le (n : Nat) (h : n < 100000) : (Nat.toDigits 10 n).length ≤ 5 :=
  Nat.toDigitsCore_length 10 (by decide) (n + 1) n 5 (by simpa using h) (by decide)

theorem toDigits_length_gt (n : Nat) (h : 100000 ≤ n) : 5 < (Nat.toDigits 10 n).length := by
  by_contra hle
  have h1 := decimalValue_lt _ (toDigits_value n).2
  rw [(toDigits_value n).1] at h1
  have h2 : 10 ^ (Nat.toDigits 10 n).length ≤ 10 ^ 5 :=
    Nat.pow_le_pow_right (by decide) (by omega)
  omega

/-! ## How a scan ends -/

theorem flagsAfter_append : ∀ (a b : List Char) (iq esc : Bool),
    flagsAfter iq esc (a ++ b) =
      flagsAfter (flagsAfter iq esc a).1 (flagsAfter iq esc a).2 b := by
  intro a
  induction a with
  | nil => intro b iq esc; simp [flagsAfter]
  | cons c a ih =>
    intro b iq esc
    rw [List.cons_append, flagsAfter_cons, flagsAfter_cons, ih]

theorem charStep_a : charStep false false 'a' = (false, false, false) := by decide

theorem charStep_semicolon : charStep false false ';' = (false, false, true) := by decide

theorem flagsAfter_replicate_a (n : Nat) :
    flagsAfter false false (List.replicate n 'a') = (false, false) := by
  induction n with
  | zero => rfl
  | succ n ih => rw [List.replicate_succ, flagsAfter_cons, charStep_a]; exact ih

/-- A `;` read with both flags down leaves both flags down. -/
theorem flagsAfter_terminated {p : List Char} (h : flagsAfter false false p = (false, false)) :
    flagsAfter false false (p ++ [';']) = (false, false) := by
  rw [flagsAfter_append, h, flagsAfter_cons, charStep_semicolon]
  rfl

/-- A scan that leaves the stream good ended at a `;` read with both flags
down. -/
theorem scanLoop_good_ends : ∀ (cs st : List Char) (iq esc : Bool) (st' : List Char)
    (s' : Stream), scanLoop cs st iq esc = .stmt st' s' → s'.good = true →
      ∃ p, st' = st ++ p ++ [';'] ∧ cs = p ++ ';' :: s'.rest ∧
        flagsAfter iq esc p = (false, false) := by
  intro cs
  induction cs with
  | nil =>
    intro st iq esc st' s' h hg
    simp only [scanLoop, ScanResult.stmt.injEq] at h
    obtain ⟨_, rfl⟩ := h
    cases hg
  | cons c cs ih =>
    intro st iq esc st' s' h hg
    rw [scanLoop_cons] at h
    split at h
    · rename_i hb
      obtain ⟨rfl, rfl, rfl⟩ := (charStep_break _ _ _).1 hb
      simp only [ScanResult.stmt.injEq] at h
      obtain ⟨rfl, rfl⟩ := h
      exact ⟨[], by simp, by simp, rfl⟩
    · split at h
      · cases h
      · obtain ⟨p, h1, h2, h3⟩ := ih _ _ _ _ _ h hg
        refine ⟨c :: p, ?_, ?_, ?_⟩
        · simp [h1]
        · simp [h2]
        · rw [flagsAfter_cons]; exact h3

/-- A scan that leaves the stream failed never read a `;` with both flags
down. -/
theorem scanLoop_failed_unterminated : ∀ (cs st : List Char) (iq esc : Bool)
    (st' : List Char) (s' : Stream), scanLoop cs st iq esc = .stmt st' s' → s'.good = false →
      ∀ q q', cs = q ++ ';' :: q' → flagsAfter iq esc q ≠ (false, false) := by
  intro cs
  induction cs with
  | nil =>
    intro st iq esc st' s' _ _ q q' hq
    simp at hq
  | cons c cs ih =>
    intro st iq esc st' s' h hg q q' hq
    rw [scanLoop_cons] at h
    split at h
    · simp only [ScanResult.stmt.injEq] at h
      obtain ⟨_, rfl⟩ := h
      cases hg
    · rename_i hb
      split at h
      · cases h
      · cases q with
        | nil =>
          simp only [List.nil_append, List.cons.injEq] at hq
          obtain ⟨rfl, _⟩ := hq
          intro hf
          simp only [flagsAfter, Prod.mk.injEq] at hf
          exact hb ((charStep_break _ _ _).2 ⟨rfl, hf.1, hf.2⟩)
        | cons d q =>
          simp only [List.cons_append, List.cons.injEq] at hq
          obtain ⟨rfl, hq⟩ := hq
          rw [flagsAfter_cons]
          exact ih _ _ _ _ _ h hg q q' hq

/-- The length of what a scan returns: at most one byte over the ceiling, and
over the ceiling only with the terminating `;` as that byte. -/
theorem scanLoop_length_le : ∀ (cs st : List Char) (iq esc : Bool) (st' : List Char)
    (s' : Stream), scanLoop cs st iq esc = .stmt st' s' → st.length ≤ statementCeiling →
      st'.length ≤ statementCeiling + 1 ∧ (s'.good = false → st'.length ≤ statementCeiling) := by
  intro cs
  induction cs with
  | nil =>
    intro st iq esc st' s' h hl
    simp only [scanLoop, ScanResult.stmt.injEq] at h
    obtain ⟨rfl, _⟩ := h
    exact ⟨by omega, fun _ => hl⟩
  | cons c cs ih =>
    intro st iq esc st' s' h hl
    rw [scanLoop_cons] at h
    split at h
    · simp only [ScanResult.stmt.injEq] at h
      obtain ⟨rfl, rfl⟩ := h
      refine ⟨by simp; omega, fun hg => by cases hg⟩
    · split at h
      · cases h
      · rename_i hlen
        exact ih _ _ _ _ _ h (by omega)

/-- The scan loop on a run of the byte `a` followed by anything: it stops at the
ceiling as soon as the statement would grow past it. -/
theorem scanLoop_replicate_append_tooLong : ∀ (n : Nat) (st more : List Char),
    st.length ≤ statementCeiling → statementCeiling < st.length + n →
      scanLoop (List.replicate n 'a' ++ more) st false false = .tooLong := by
  intro n
  induction n with
  | zero => intro st more h1 h2; omega
  | succ n ih =>
    intro st more h1 h2
    have hb : ¬ (charStep false false 'a').2.2 = true := by rw [charStep_a]; simp
    rw [List.replicate_succ, List.cons_append, scanLoop_cons, if_neg hb]
    by_cases hlen : (st ++ ['a']).length > statementCeiling
    · rw [if_pos hlen]
    · rw [if_neg hlen, charStep_a]
      apply ih
      · omega
      · simp only [List.length_append, List.length_singleton]
        omega

/-- The scan of `n` bytes `a` and a `;`, with `n` up to the ceiling: one
statement, the whole of it. -/
theorem scan_replicate_semicolon (n : Nat) (more : List Char) (h : n ≤ statementCeiling) :
    scan (List.replicate n 'a' ++ ';' :: more) =
      .stmt (List.replicate n 'a' ++ [';']) ⟨more, true⟩ := by
  have := scanLoop_terminated (List.replicate n 'a') more [] false false
    (flagsAfter_replicate_a n) ?_ (by simpa using h)
  · simpa [scan] using this
  · intro q q' hq
    have : ';' ∈ List.replicate n 'a' := by rw [hq]; simp
    simp [List.mem_replicate] at this

/-! ## Runs on a single statement, and the files a run creates -/

/-- The run on an input that is one terminated statement within the limit, when
the progress display returns for the empty block and for the statement:
`Success`, one file, one chunk, the input. -/
theorem processFile_single (st : List Char) (maxByteSize w : Nat)
    (hs : scan st = .stmt st ⟨[], true⟩) (hl : st.length ≤ maxByteSize)
    (hd0 : outputStatistics 0 maxByteSize w = true)
    (hd1 : outputStatistics st.length maxByteSize w = true) :
    processFile Env.ideal st maxByteSize w = some ⟨.returned .Success, [0], [st], []⟩ := by
  have hne : st ≠ [] := (scan_consumes hs).2.2 rfl
  obtain ⟨k, hk⟩ : ∃ k, st.length = k + 1 :=
    ⟨st.length - 1, by have := List.length_pos.2 hne; omega⟩
  have h3 : statementLoop maxByteSize w (k + 1) ⟨[], false⟩ st =
      some (.left st [] ⟨[], false⟩) := by
    rw [statementLoop_succ]
    simp
  have h2 : statementLoop maxByteSize w (k + 1 + 1) ⟨[], true⟩ st =
      some (.left st [] ⟨[], false⟩) := by
    rw [statementLoop_succ]
    have hnil : scan [] = .stmt [] ⟨[], false⟩ := rfl
    simp only [if_true, hnil, List.length_nil, Nat.add_zero, List.append_nil]
    rw [if_neg (by simp [hd1]), if_neg (by omega), if_neg (by omega), h3]
  have h1 : statementLoop maxByteSize w (k + 1 + 1 + 1) ⟨st, true⟩ [] =
      some (.left st [] ⟨[], false⟩) := by
    rw [statementLoop_succ]
    simp only [if_true, hs, List.length_nil, Nat.zero_add, List.nil_append]
    rw [if_neg (by simp [hd0]), if_neg (by omega), if_neg (by omega), h2]
  have h0 : statementLoop maxByteSize w (st.length + 2) ⟨st, true⟩ [] =
      some (.left st [] ⟨[], false⟩) := by
    rw [hk]
    exact h1
  rw [processFile, if_neg (by simp [Env.ideal]), chunkLoop_succ]
  simp only [h0]
  simp [Env.ideal, hd1]

/-- The files a run of the chunk loop has created are those of the parts
`0, 1, ...` in order: one per block written, and one more, left empty, when the
run ended inside the statement loop, at the progress display or at a failed
write. -/
theorem chunkLoop_created (env : Env) (maxByteSize w : Nat) : ∀ (budget partCount : Nat)
    (s : Stream) (last : List Char) (created : List Nat) (written : List (List Char))
    (o : Outcome),
    chunkLoop env maxByteSize w budget partCount s last created written = some o →
    created = List.range partCount → written.length = partCount →
      (o.status = .returned .MaxByteSizeExceeded ∨ o.status = .returned .CanNotWrite ∨
          o.status = .aborted →
        o.created = List.range (o.written.length + 1)) ∧
      (o.status = .returned .Success ∨ o.status = .returned .CanNotOpenForWrite →
        o.created = List.range o.written.length) := by
  intro budget
  induction budget with
  | zero => intro pc s last created written o h; simp [chunkLoop] at h
  | succ budget ih =>
    intro pc s last created written o h hc hw
    have hc' : created ++ [pc] = List.range (pc + 1) := by rw [hc, List.range_succ]
    rw [chunkLoop_succ] at h
    split at h
    · simp only [Option.some.injEq] at h
      subst h
      simp [hc, hw]
    · cases hr : statementLoop maxByteSize w (s.rest.length + 2) s last with
      | none => simp [hr] at h
      | some r =>
        cases r with
        | failed status =>
          simp only [hr, Option.some.injEq] at h
          subst h
          have := (statementLoop_failed _ _ _ _ _ _ hr).1
          subst this
          simp [hc', hw]
        | aborted =>
          simp only [hr, Option.some.injEq] at h
          subst h
          simp [hc', hw]
        | left block last' after =>
          simp only [hr] at h
          split at h
          · simp only [Option.some.injEq] at h
            subst h
            simp [hc', hw]
          · split at h
            · simp only [Option.some.injEq] at h
              subst h
              simp [hc', hw]
            · split at h
              · simp only [Option.some.injEq] at h
                subst h
                simp [hc', hw]
              · exact ih _ _ _ _ _ _ h hc' (by simp [hw])

theorem processFile_created (env : Env) (input : List Char) (maxByteSize w : Nat) (o : Outcome)
    (h : processFile env input maxByteSize w = some o) :
    (o.status = .returned .MaxByteSizeExceeded ∨ o.status = .returned .CanNotWrite ∨
        o.status = .aborted →
      o.created = List.range (o.written.length + 1)) ∧
    (o.status = .returned .Success ∨ o.status = .returned .CanNotOpenForWrite ∨
        o.status = .returned .CanNotOpen →
      o.created = List.range o.written.length) := by
  unfold processFile at h
  split at h
  · simp only [Option.some.injEq] at h
    subst h
    simp
  · obtain ⟨h1, h2⟩ := chunkLoop_created env maxByteSize w _ _ _ _ _ _ _ h rfl rfl
    refine ⟨h1, ?_⟩
    rintro (hs | hs | hs)
    · exact h2 (Or.inl hs)
    · exact h2 (Or.inr hs)
    · rcases chunkLoop_status env maxByteSize w _ _ _ _ _ _ _ h (by simp) with
        h' | h' | h' | h' | h' <;> simp [hs] at h'

/-- The files a run has created are those of the parts `0, 1, ...` up to some
part. -/
theorem processFile_created_range (env : Env) (input : List Char) (maxByteSize w : Nat)
    (o : Outcome) (h : processFile env input maxByteSize w = some o) :
    ∃ k, o.created = List.range k := by
  obtain ⟨h1, h2⟩ := processFile_created env input maxByteSize w o h
  rcases processFile_status env input maxByteSize w o h with
    ⟨hs, _⟩ | ⟨_, hs | hs | ⟨hs, _⟩ | ⟨hs, _⟩ | ⟨hs, _⟩⟩
  · exact ⟨_, h2 (Or.inr (Or.inr hs))⟩
  · exact ⟨_, h2 (Or.inl hs)⟩
  · exact ⟨_, h1 (Or.inl hs)⟩
  · exact ⟨_, h2 (Or.inr (Or.inl hs))⟩
  · exact ⟨_, h1 (Or.inr (Or.inl hs))⟩
  · exact ⟨_, h1 (Or.inr (Or.inr hs))⟩

/-- Every list of non-empty lists has at most as many members as its
concatenation has elements. -/
theorem length_le_flatten_length {α : Type} : ∀ (l : List (List α)), (∀ x ∈ l, x ≠ []) →
    l.length ≤ l.flatten.length := by
  intro l
  induction l with
  | nil => intro _; simp
  | cons x l ih =>
    intro h
    have h1 := ih (fun y hy => h y (by simp [hy]))
    have h2 : 0 < x.length := List.length_pos.2 (h x (by simp))
    simp only [List.length_cons, List.flatten_cons, List.length_append]
    omega

/-- The run on an input whose first scan stops at the ceiling. -/
theorem processFile_tooLong (input : List Char) (maxByteSize w : Nat)
    (h : scan input = .tooLong) :
    processFile Env.ideal input maxByteSize w =
      some ⟨.returned .MaxByteSizeExceeded, [0], [], []⟩ := by
  have h1 := chunkLoop_tooLong Env.ideal maxByteSize w input.length 0 ⟨input, true⟩ [] [] []
    rfl rfl h
  rw [processFile, if_neg (by simp [Env.ideal]), h1]
  rfl

/-- When the input is empty or ends with a `;` read with both flags down, the
last statement the scanner yields, the one found at the end of the stream, is
empty. -/
theorem scansTo_last_empty : ∀ (stmts : List (List Char)) (s e : Stream),
    ScansTo s stmts e → e.good = false → s.good = true →
    (s.rest = [] ∨ ∃ p, s.rest = p ++ [';'] ∧ flagsAfter false false p = (false, false)) →
      ∃ init, stmts = init ++ [[]] := by
  intro stmts
  induction stmts with
  | nil =>
    intro s e h he hs _
    rw [scansTo_nil] at h
    subst h
    rw [hs] at he
    cases he
  | cons a stmts ih =>
    intro s e h he hs hshape
    obtain ⟨_, s', hscan, hrest⟩ := scansTo_cons.1 h
    by_cases hg : s'.good = true
    · obtain ⟨p0, _, h2, h3⟩ := scanLoop_good_ends _ _ _ _ _ _ hscan hg
      have hshape' : s'.rest = [] ∨
          ∃ p, s'.rest = p ++ [';'] ∧ flagsAfter false false p = (false, false) := by
        rcases hshape with h0 | ⟨p, hp, hf⟩
        · rw [h0] at h2
          simp at h2
        · rcases List.eq_nil_or_concat s'.rest with h0 | ⟨L, b, hL⟩
          · exact Or.inl h0
          · right
            rw [List.concat_eq_append] at hL
            have heq : p ++ [';'] = (p0 ++ ';' :: L) ++ [b] := by
              rw [← hp, h2, hL]
              simp
            obtain ⟨e1, e2⟩ := List.append_inj' heq rfl
            simp only [List.cons.injEq, and_true] at e2
            subst e2
            refine ⟨L, hL, ?_⟩
            have e3 : p = (p0 ++ [';']) ++ L := by rw [e1]; simp
            rw [e3, flagsAfter_append, flagsAfter_terminated h3] at hf
            exact hf
      obtain ⟨init, hinit⟩ := ih s' e hrest he hg hshape'
      exact ⟨a :: init, by rw [hinit]; rfl⟩
    · have hg' : s'.good = false := by simpa using hg
      have hs' := scan_failed_eq hscan hg'
      subst hs'
      have hnil := scansTo_exhausted hrest
      subst hnil
      have ha : s.rest = a := by simpa using (scan_consumes hscan).1
      refine ⟨[], ?_⟩
      rcases hshape with h0 | ⟨p, hp, hf⟩
      · rw [← ha, h0]
        rfl
      · exact absurd hf (scanLoop_failed_unterminated _ _ _ _ _ _ hscan rfl p [] hp)

/-- The progress display returns on every call a run makes, when the limit is
not zero and the bar width is one that the conversion to `float` does not round
up and that a string can have: the blocks it is called with are within the
limit. -/
theorem display_returns (maxByteSize w : Nat) (hm : 0 < maxByteSize)
    (hw : roundToFloat w ≤ w) (hs : w ≤ stringMaxSize) :
    ∀ c, c ≤ maxByteSize → outputStatistics c maxByteSize w = true :=
  fun c hc => outputStatistics_returns c maxByteSize w hm hc hw hs

/-- With every file operation succeeding and the progress display returning, a
run on an input on which the scanner yields statements within the limit returns
`Success`. -/
theorem processFile_success (env : Env) (input : List Char) (maxByteSize w : Nat)
    (stmts : List (List Char)) (o : Outcome) (hin : env.inputOpens = true)
    (hopen : ∀ n, env.outputOpens n = true) (hwrite : ∀ n, env.writeSucceeds n = true)
    (hbar : ∀ c, c ≤ maxByteSize → outputStatistics c maxByteSize w = true)
    (hS : Yields input stmts) (hmax : ∀ st ∈ stmts, st.length ≤ maxByteSize)
    (ho : processFile env input maxByteSize w = some o) :
    o.status = .returned .Success := by
  obtain ⟨runs, rem, t, _, h2, _, _, _, h6⟩ := processFile_runs env input maxByteSize w o ho
  obtain ⟨B, hB, hBt⟩ := yields_prefix h2 hS
  rcases processFile_status env input maxByteSize w o ho with ⟨_, h⟩ | ⟨_, h | h | h | h | h⟩
  · rw [hin] at h
    cases h
  · exact h
  · obtain ⟨tg, _, hnext⟩ := h6 h
    cases B with
    | nil =>
      rw [scansTo_nil] at hBt
      rw [hBt] at tg
      cases tg
    | cons b B =>
      obtain ⟨_, s', hb, _⟩ := scansTo_cons.1 hBt
      rcases hnext with hnext | ⟨st, t', hnext, hlen⟩
      · rw [hb] at hnext
        cases hnext
      · rw [hb] at hnext
        simp only [ScanResult.stmt.injEq] at hnext
        obtain ⟨rfl, _⟩ := hnext
        have := hmax b (by simp [hB])
        omega
  · obtain ⟨_, n, hn⟩ := h
    rw [hopen n] at hn
    cases hn
  · obtain ⟨_, n, hn⟩ := h
    rw [hwrite n] at hn
    cases hn
  · obtain ⟨_, c, hc, hthrow⟩ := h
    rw [hbar c hc] at hthrow
    cases hthrow

/-- With every file operation succeeding and the progress display returning, a
run on an input on which the scanner yields the statements `stmts` returns
`MaxByteSizeExceeded` exactly when one of them is over the limit, and `Success`
otherwise. -/
theorem processFile_fails_iff (env : Env) (input : List Char) (maxByteSize w : Nat)
    (stmts : List (List Char)) (o : Outcome) (hin : env.inputOpens = true)
    (hopen : ∀ n, env.outputOpens n = true) (hwrite : ∀ n, env.writeSucceeds n = true)
    (hbar : ∀ c, c ≤ maxByteSize → outputStatistics c maxByteSize w = true)
    (hS : Yields input stmts) (ho : processFile env input maxByteSize w = some o) :
    (o.status = .returned .MaxByteSizeExceeded ↔ ∃ st ∈ stmts, st.length > maxByteSize) ∧
    ((¬ ∃ st ∈ stmts, st.length > maxByteSize) → o.status = .returned .Success) := by
  have hok : (¬ ∃ st ∈ stmts, st.length > maxByteSize) → o.status = .returned .Success := by
    intro hno
    apply processFile_success env input maxByteSize w stmts o hin hopen hwrite hbar hS _ ho
    intro st hst
    by_contra hgt
    exact hno ⟨st, hst, by omega⟩
  refine ⟨⟨?_, ?_⟩, hok⟩
  · intro hst
    by_contra hno
    rw [hok hno] at hst
    cases hst
  · intro hex
    obtain ⟨runs, rem, t, _, h2, h3, _, h5, _⟩ := processFile_runs env input maxByteSize w o ho
    obtain ⟨B, hB, hBt⟩ := yields_prefix h2 hS
    rcases processFile_status env input maxByteSize w o ho with
      ⟨_, h⟩ | ⟨_, h | h | h | h | h⟩
    · rw [hin] at h
      cases h
    · exfalso
      obtain ⟨hrem, ht, _, hlast⟩ := h5 h
      subst ht
      have hBnil := scansTo_exhausted hBt
      subst hBnil
      obtain ⟨st, hmem, hlen⟩ := hex
      rw [hB, List.append_nil, List.mem_append] at hmem
      rcases hmem with hmem | hmem
      · obtain ⟨r, hr, hstr⟩ := List.mem_flatten.1 hmem
        have := (h3 r hr).2.2 st hstr
        omega
      · rw [hrem] at hmem
        by_cases h0 : o.lastReadStatement = []
        · simp [carried, h0] at hmem
        · simp only [carried_of_ne h0, List.mem_singleton] at hmem
          subst hmem
          omega
    · exact h
    · obtain ⟨_, n, hn⟩ := h
      rw [hopen n] at hn
      cases hn
    · obtain ⟨_, n, hn⟩ := h
      rw [hwrite n] at hn
      cases hn
    · obtain ⟨_, c, hc, hthrow⟩ := h
      rw [hbar c hc] at hthrow
      cases hthrow

theorem flatten_map_flatten {α : Type} : ∀ (l : List (List (List α))),
    (l.map List.flatten).flatten = l.flatten.flatten := by
  intro l
  induction l with
  | nil => rfl
  | cons r l ih => simp [ih]

/-- On a successful run the written chunks and the statement left in
`lastReadStatement` account for the statements the scanner yields up to
exhaustion, in order. -/
theorem processFile_accounting (env : Env) (input : List Char) (maxByteSize w : Nat)
    (o : Outcome) (ho : processFile env input maxByteSize w = some o)
    (hs : o.status = .returned .Success) :
    ∃ before, Yields input (before ++ carried o.lastReadStatement) ∧
      before.flatten = o.written.flatten ∧
      o.written.flatten ++ o.lastReadStatement = input := by
  obtain ⟨runs, rem, t, h1, h2, _, _, h5, _⟩ := processFile_runs env input maxByteSize w o ho
  obtain ⟨hrem, ht, _, _⟩ := h5 hs
  subst hrem
  subst ht
  have hw : o.written.flatten = runs.flatten.flatten := by
    rw [h1, flatten_map_flatten]
  refine ⟨runs.flatten, h2, hw.symm, ?_⟩
  have := scansTo_consumes h2
  simp only [List.append_nil, List.flatten_append, carried_flatten] at this
  rw [hw]
  exact this.symm

/-! ## File operations and the status of a run -/

/-- With the limit zero the progress display throws on its first call: every
run whose first scan returns a statement is aborted, the file of part 0 created
and nothing written. -/
theorem processFile_zero_limit (input st : List Char) (after : Stream) (w : Nat)
    (hs : scan input = .stmt st after) :
    processFile Env.ideal input 0 w = some ⟨.aborted, [0], [], []⟩ := by
  have h1 : statementLoop 0 w (input.length + 1 + 1) ⟨input, true⟩ [] = some .aborted := by
    rw [statementLoop_succ]
    simp [hs, outputStatistics_zero]
  have h2 : statementLoop 0 w (input.length + 2) ⟨input, true⟩ [] = some .aborted := h1
  rw [processFile, if_neg (by simp [Env.ideal]), chunkLoop_succ]
  simp only [h2]
  simp [Env.ideal]

/-- The run on the empty input when the limit is not zero and the progress
display returns for the empty block: `Success`, the file of part 0 and one
chunk, the empty one. -/
theorem processFile_empty (env : Env) (maxByteSize w : Nat) (hin : env.inputOpens = true)
    (hopen : env.outputOpens 0 = true) (hwrite : env.writeSucceeds 0 = true)
    (hd : outputStatistics 0 maxByteSize w = true) :
    processFile env [] maxByteSize w = some ⟨.returned .Success, [0], [[]], []⟩ := by
  simp [processFile, chunkLoop, statementLoop, scan, scanLoop, hin, hopen, hwrite, hd]


set_option maxRecDepth 8000

/-- Claim C1 (losslessness), refuted on the code: on the input `AAAA;BBBB` with
`maxByteSize = 5` (and the bar width 60 of `main`) the run returns `Success`
after writing the single chunk `AAAA;`. The final statement `BBBB`, read at the
end of the stream when it no longer fitted, is still in `lastReadStatement`
when the loop is left, so the chunks do not concatenate to the input. -/
theorem C1_final_statement_lost :
    processFile Env.ideal "AAAA;BBBB".toList 5 60 =
        some ⟨.returned .Success, [0], ["AAAA;".toList], "BBBB".toList⟩ ∧
      ["AAAA;".toList].flatten ≠ "AAAA;BBBB".toList := by
  decide

/-- Claim C2 (size bound): on every input, for every `maxByteSize` and bar
width and whatever file operations fail, `processFile` ends and every chunk it
has written is at most `maxByteSize` bytes long. -/
theorem C2_size_bound (env : Env) (input : List Char) (maxByteSize w : Nat) :
    ∃ o, processFile env input maxByteSize w = some o ∧
      ∀ chunk ∈ o.written, chunk.length ≤ maxByteSize := by
  obtain ⟨o, ho⟩ := processFile_returns env input maxByteSize w
  refine ⟨o, ho, ?_⟩
  obtain ⟨runs, rem, t, h1, _, h3, _⟩ := processFile_runs env input maxByteSize w o ho
  intro chunk hc
  rw [h1, List.mem_map] at hc
  obtain ⟨r, hr, rfl⟩ := hc
  exact (h3 r hr).2.1

/-- Claim C3 (no mid-statement split): on every input and for every
`maxByteSize`, the written chunks are the concatenations of runs `runs` of
statements, one run per chunk in chunk order, and the statements of these runs,
taken in order, are the statements the scanner yields from the start of the
input, one scan after the other. So whenever `stmts` is the whole sequence the
scanner yields on the input, the runs are consecutive segments of `stmts`
starting at its first statement. -/
theorem C3_chunks_are_statement_runs (env : Env) (input : List Char)
    (maxByteSize w : Nat) :
    ∃ o, processFile env input maxByteSize w = some o ∧
      ∃ runs : List (List (List Char)),
        o.written = runs.map List.flatten ∧
        (∃ t, ScansTo ⟨input, true⟩ runs.flatten t) ∧
        ∀ stmts, Yields input stmts → runs.flatten <+: stmts := by
  obtain ⟨o, ho⟩ := processFile_returns env input maxByteSize w
  refine ⟨o, ho, ?_⟩
  obtain ⟨runs, rem, t, h1, h2, _⟩ := processFile_runs env input maxByteSize w o ho
  obtain ⟨m, hm, _⟩ := scansTo_append.1 h2
  refine ⟨runs, h1, ⟨m, hm⟩, ?_⟩
  intro stmts hS
  obtain ⟨B, hB, _⟩ := yields_prefix hm hS
  exact ⟨B, hB.symm⟩

/-- Claim C3 at work on `A;B;C;` with `maxByteSize = 4`: the scanner yields
`A;`, `B;`, `C;` and the empty final statement, and the two chunks `A;B;` and
`C;` are runs of them. -/
theorem C3_chunks_are_statement_runs_witness :
    ∃ o, processFile Env.ideal "A;B;C;".toList 4 60 = some o ∧
      ∃ runs : List (List (List Char)),
        o.written = runs.map List.flatten ∧
        runs.flatten <+: ["A;".toList, "B;".toList, "C;".toList, []] := by
  obtain ⟨o, ho, runs, h1, _, h3⟩ :=
    C3_chunks_are_statement_runs Env.ideal "A;B;C;".toList 4 60
  exact ⟨o, ho, runs, h1, h3 _ (by decide)⟩

/-- Claim C4 as stated (for every remaining input), refuted at the ceiling: the
input of `2^30 + 1` bytes `a` holds no `;` at all, yet the scan does not return
it as a statement: it stops with the return of line 122. -/
theorem C4_ceiling_counterexample :
    ';' ∉ List.replicate (statementCeiling + 1) 'a' ∧
      scan (List.replicate (statementCeiling + 1) 'a') = .tooLong ∧
      scan (List.replicate (statementCeiling + 1) 'a') ≠
        .stmt (List.replicate (statementCeiling + 1) 'a') ⟨[], false⟩ := by
  refine ⟨?_, scan_replicate_tooLong, ?_⟩
  · simp [List.mem_replicate]
  · rw [scan_replicate_tooLong]
    simp

/-- Claim C4, amended (statement termination rule below the ceiling). Let
`input` be the unread bytes. If `p ++ [';']` is the shortest prefix of `input`
ending with a `;` that is read with `insideQuotes` and `isEscaped` both false,
and `p` is at most `2^30` bytes long, one scan returns exactly that prefix and
leaves the stream good on the bytes after it. If `input` has no such `;` and is
at most `2^30` bytes long, one scan returns the whole of `input` and leaves the
stream failed (exhausted). In particular `INSERT INTO t VALUES ('a;b');` is
scanned as exactly one statement. -/
theorem C4_statement_termination (input : List Char) :
    (∀ p r, input = p ++ ';' :: r → flagsAfter false false p = (false, false) →
      (∀ q r', input = q ++ ';' :: r' → flagsAfter false false q = (false, false) →
        p.length ≤ q.length) →
      p.length ≤ statementCeiling →
        scan input = .stmt (p ++ [';']) ⟨r, true⟩) ∧
    ((∀ q r', input = q ++ ';' :: r' → flagsAfter false false q ≠ (false, false)) →
      input.length ≤ statementCeiling →
        scan input = .stmt input ⟨[], false⟩) ∧
    scan "INSERT INTO t VALUES ('a;b');".toList =
      .stmt "INSERT INTO t VALUES ('a;b');".toList ⟨[], true⟩ := by
  refine ⟨?_, ?_, by decide⟩
  · intro p r hin hf hmin hlen
    subst hin
    have := scanLoop_terminated p r [] false false hf ?_ (by simpa using hlen)
    · simpa [scan] using this
    · intro q q' hq hfq
      have := hmin q (q' ++ ';' :: r) (by simp [hq]) hfq
      simp [hq] at this
  · intro hmin hlen
    have := scanLoop_unterminated input [] false false hmin (by simpa using hlen)
    simpa [scan] using this

/-- Claim C4 (amended) at work. On `a';'b;cd` the first `;` is read inside a
quote, so the scan returns `a';'b;` and leaves `cd` unread; on `ab'c;` the only
`;` is read inside a quote, so the scan returns the whole input and leaves the
stream failed. -/
theorem C4_statement_termination_witness :
    scan "a';'b;cd".toList = .stmt "a';'b;".toList ⟨"cd".toList, true⟩ ∧
      scan "ab'c;".toList = .stmt "ab'c;".toList ⟨[], false⟩ :=
  ⟨(C4_statement_termination "a';'b;cd".toList).1 "a';'b".toList "cd".toList (by decide)
    (by decide)
    (by
      intro q r' hq hf
      by_contra hlt
      have hlen : q.length < 5 := by simpa using hlt
      obtain ⟨h5, h6, _⟩ := split_at_semicolon hq
      have : q.length = 0 ∨ q.length = 1 ∨ q.length = 2 ∨ q.length = 3 ∨ q.length = 4 := by
        omega
      rcases this with h | h | h | h | h <;> rw [h] at h5 h6 <;>
        first
          | (exact absurd h6 (by decide))
          | (rw [h5] at hf; exact absurd hf (by decide)))
    (by decide),
   (C4_statement_termination "ab'c;".toList).2.1
    (by
      intro q r' hq hf
      obtain ⟨h5, h6, h7⟩ := split_at_semicolon hq
      have hlen : q.length < 5 := by simpa using h7
      have : q.length = 0 ∨ q.length = 1 ∨ q.length = 2 ∨ q.length = 3 ∨ q.length = 4 := by
        omega
      rcases this with h | h | h | h | h <;> rw [h] at h5 h6 <;>
        first
          | (exact absurd h6 (by decide))
          | (rw [h5] at hf; exact absurd hf (by decide)))
    (by decide)⟩

/-- Claim C5 (escape rule): for every byte `c` and every quote state `q`, the
scan loop, not escaped, goes through a backslash and then `c` without taking the
`break` and comes out with `insideQuotes = q` and `isEscaped = false`: the
backslash only raises `isEscaped`, and the byte after it only lowers it again.
With at least two bytes of room below the ceiling the loop goes on behind the
two bytes in the flags it had before them. The input `'it\'s';` is scanned as
exactly one statement, ending at its final `;`. -/
theorem C5_escape_rule :
    (∀ (q : Bool) (c : Char),
      charStep q false '\\' = (q, true, false) ∧ charStep q true c = (q, false, false) ∧
      flagsAfter q false ['\\', c] = (q, false)) ∧
    (∀ (q : Bool) (c : Char) (rest st : List Char), st.length + 2 ≤ statementCeiling →
      scanLoop ('\\' :: c :: rest) st q false = scanLoop rest (st ++ ['\\', c]) q false) ∧
    scan "'it\\'s';".toList = .stmt "'it\\'s';".toList ⟨[], true⟩ := by
  have h1 : ∀ q : Bool, charStep q false '\\' = (q, true, false) := by
    intro q
    simp [charStep]
  have h2 : ∀ (q : Bool) (c : Char), charStep q true c = (q, false, false) := by
    intro q c
    simp [charStep]
  refine ⟨fun q c => ⟨h1 q, h2 q c, by simp [flagsAfter, h1, h2]⟩, ?_, by decide⟩
  intro q c rest st hlen
  have l1 : ¬ (st ++ ['\\']).length > statementCeiling := by
    simp only [List.length_append, List.length_singleton]
    omega
  have l2 : ¬ (st ++ ['\\'] ++ [c]).length > statementCeiling := by
    simp only [List.length_append, List.length_singleton]
    omega
  rw [scanLoop_cons, h1, scanLoop_cons, h2]
  simp only [Bool.false_eq_true, if_false, if_neg l1, if_neg l2]
  simp

/-- Claim C5 at work inside a quote: after `'it` the scan loop reads the
backslash and the quote behind it and goes on inside the quote. -/
theorem C5_escape_rule_witness :
    scanLoop "\\'s';".toList "'it".toList true false =
      scanLoop "s';".toList "'it\\'".toList true false :=
  C5_escape_rule.2.1 true '\'' "s';".toList "'it".toList (by decide)

/-- Claim C6 (fails if and only if oversized), refuted on the code: with
`maxByteSize = 0` the scanner yields `A;` and the empty final statement on the
input `A;`, the first of them longer than the limit, yet the run does not
return `MaxByteSizeExceeded`: the call of `outputStatistics` on line 131 comes
before the test of line 135, divides by the limit, and throws; the run is
aborted with the file of part 0 created. -/
theorem C6_zero_limit_aborts :
    Yields "A;".toList ["A;".toList, []] ∧
      processFile Env.ideal "A;".toList 0 60 = some ⟨.aborted, [0], [], []⟩ := by
  decide

/-- Claim C7 (scenario): on the input
`INSERT INTO a VALUES (1);INSERT INTO a VALUES ('x;y');` with `maxByteSize = 30`
(and the bar width 60 of `main`) the run succeeds, creates the files of parts 0
and 1 and no other, writes `INSERT INTO a VALUES (1);` as chunk 0 and
`INSERT INTO a VALUES ('x;y');` as chunk 1, and carries nothing over. -/
theorem C7_scenario :
    processFile Env.ideal
        "INSERT INTO a VALUES (1);INSERT INTO a VALUES ('x;y');".toList 30 60 =
      some ⟨.returned .Success, [0, 1],
        ["INSERT INTO a VALUES (1);".toList, "INSERT INTO a VALUES ('x;y');".toList], []⟩ := by
  decide

/-- Claim C8 (empty input), refuted on the code at `maxByteSize = 0`: on the
empty input the loop body runs once, and the call of `outputStatistics` on line
131 computes `0/0` and throws; the run is aborted with the file of part 0
created, and does not return `Success`. -/
theorem C8_empty_input_aborts :
    processFile Env.ideal [] 0 60 = some ⟨.aborted, [0], [], []⟩ := by
  decide

/-- Claim C9 (greedy maximality): on every input and for every `maxByteSize`,
on successful runs and on the others, the written chunks are the concatenations
of runs `runs` of scanned statements (one run per chunk, in order), and for
every two neighbouring runs the second one starts with a statement whose length
added to the byte length of the chunk of the first one is strictly greater than
`maxByteSize`. -/
theorem C9_greedy_maximality (env : Env) (input : List Char) (maxByteSize w : Nat) :
    ∃ o, processFile env input maxByteSize w = some o ∧
      ∃ runs : List (List (List Char)),
        o.written = runs.map List.flatten ∧
        (∃ t, ScansTo ⟨input, true⟩ runs.flatten t) ∧
        List.Chain' (ClosedBy maxByteSize) runs := by
  obtain ⟨o, ho⟩ := processFile_returns env input maxByteSize w
  refine ⟨o, ho, ?_⟩
  obtain ⟨runs, rem, t, h1, h2, _, h4, _⟩ := processFile_runs env input maxByteSize w o ho
  obtain ⟨m, hm, _⟩ := scansTo_append.1 h2
  exact ⟨runs, h1, ⟨m, hm⟩, h4⟩

/-- Claim C11 (absolute ceiling), refuted on the code at its boundary: the
statement of `2^30` bytes `a` and the terminating `;` is `2^30 + 1` bytes long,
over the ceiling, yet the scan returns it, because the `break` of line 114
leaves the loop before the test of line 118; with `maxByteSize = 2^30 + 1` (and
the bar width 60 of `main`) the run returns `Success` and writes the statement
as chunk 0. -/
theorem C11_boundary_statement_passes :
    (List.replicate statementCeiling 'a' ++ [';']).length = 2 ^ 30 + 1 ∧
    2 ^ 30 < (List.replicate statementCeiling 'a' ++ [';']).length ∧
    scan (List.replicate statementCeiling 'a' ++ [';']) =
      .stmt (List.replicate statementCeiling 'a' ++ [';']) ⟨[], true⟩ ∧
    processFile Env.ideal (List.replicate statementCeiling 'a' ++ [';'])
        (statementCeiling + 1) 60 =
      some ⟨.returned .Success, [0], [List.replicate statementCeiling 'a' ++ [';']], []⟩ := by
  have hlen : (List.replicate statementCeiling 'a' ++ [';']).length = 2 ^ 30 + 1 := by
    rw [List.length_append, List.length_replicate, List.length_singleton]
    rfl
  have hlen' : (List.replicate statementCeiling 'a' ++ [';']).length ≤
      statementCeiling + 1 := by
    rw [List.length_append, List.length_replicate, List.length_singleton]
  have hscan := scan_replicate_semicolon statementCeiling [] (le_refl _)
  have hbar := display_returns (statementCeiling + 1) 60 (Nat.succ_pos _) (by decide)
    (by decide)
  refine ⟨hlen, by rw [hlen]; omega, hscan, ?_⟩
  exact processFile_single _ _ 60 hscan hlen' (hbar 0 (Nat.zero_le _)) (hbar _ hlen')

/-- Claim C12 (scanner losslessness): the scan loop returns what it had in
`singleStatement` followed by exactly the bytes it took from the stream, so one
scan splits the unread bytes into the statement and the bytes left; successive
scans take the statements off the front of the unread bytes; and the statements
the scanner yields up to exhaustion concatenate to the input. On every input
within the ceiling the scanner does reach exhaustion. -/
theorem C12_scanner_lossless :
    (∀ (cs st : List Char) (iq esc : Bool) (st' : List Char) (s' : Stream),
      scanLoop cs st iq esc = .stmt st' s' → st' ++ s'.rest = st ++ cs) ∧
    (∀ (cs st : List Char) (s' : Stream), scan cs = .stmt st s' → st ++ s'.rest = cs) ∧
    (∀ (s t : Stream) (stmts : List (List Char)),
      ScansTo s stmts t → stmts.flatten ++ t.rest = s.rest) ∧
    (∀ (input : List Char) (stmts : List (List Char)),
      Yields input stmts → stmts.flatten = input) ∧
    (∀ input : List Char, input.length ≤ statementCeiling →
      ∃ stmts, Yields input stmts ∧ stmts.flatten = input) := by
  have hy : ∀ (input : List Char) (stmts : List (List Char)),
      Yields input stmts → stmts.flatten = input := by
    intro input stmts h
    have := scansTo_consumes h
    simpa using this.symm
  refine ⟨?_, ?_, ?_, hy, ?_⟩
  · intro cs st iq esc st' s' h
    obtain ⟨pre, h1, h2, _⟩ := scanLoop_consumes _ _ _ _ _ _ h
    rw [h1, h2, List.append_assoc]
  · intro cs st s' h
    exact (scan_consumes h).1.symm
  · intro s t stmts h
    exact (scansTo_consumes h).symm
  · intro input h
    obtain ⟨stmts, hst⟩ := yields_exists input h
    exact ⟨stmts, hst, hy input stmts hst⟩

/-- Claim C12 at work on `A;'B;'C`: the scanner yields `A;` and `'B;'C`, which
concatenate to the input. -/
theorem C12_scanner_lossless_witness :
    ["A;".toList, "'B;'C".toList].flatten = "A;'B;'C".toList :=
  C12_scanner_lossless.2.2.2.1 "A;'B;'C".toList ["A;".toList, "'B;'C".toList] (by decide)

/-- Claim C13 (output filename): for every stem, extension and chunk index `n`
the filename is the stem, a `-`, a string `d` and the extension, where `d` is
the decimal digits of `n` behind as many `0` as it takes to make five bytes: `d`
holds digits only, denotes `n`, is exactly 5 bytes long when `n < 100000`, and
is the decimal digits of `n` alone otherwise. -/
theorem C13_output_filename (stem extension : List Char) (n : Nat) :
    ∃ d, createOutputFilename stem extension n = stem ++ ['-'] ++ d ++ extension ∧
      d = List.replicate (5 - (Nat.toDigits 10 n).length) '0' ++ Nat.toDigits 10 n ∧
      (∀ c ∈ d, c.isDigit = true) ∧ decimalValue d = n ∧
      (n < 100000 → d.length = 5) ∧ (100000 ≤ n → d = Nat.toDigits 10 n) := by
  refine ⟨insertPadded 5 '0' n, rfl, rfl, ?_, insertPadded_value n, ?_, ?_⟩
  · intro c hc
    rcases List.mem_append.1 hc with hc | hc
    · rw [(List.mem_replicate.1 hc).2]
      decide
    · exact (toDigits_value n).2 c hc
  · intro h
    have := toDigits_length_le n h
    simp only [insertPadded, List.length_append, List.length_replicate]
    omega
  · intro h
    have := toDigits_length_gt n h
    have h0 : 5 - (Nat.toDigits 10 n).length = 0 := by omega
    simp [insertPadded, h0]

/-- Claim C13 at work: part 42 of `dump.sql` is `dump-00042.sql`, and the `d` of
part 123456 is `123456`. -/
theorem C13_output_filename_witness :
    createOutputFilename "dump".toList ".sql".toList 42 = "dump-00042.sql".toList ∧
      ∃ d, createOutputFilename "dump".toList ".sql".toList 123456 =
          "dump".toList ++ ['-'] ++ d ++ ".sql".toList ∧ d = "123456".toList := by
  obtain ⟨d, h1, h2, _⟩ := C13_output_filename "dump".toList ".sql".toList 42
  obtain ⟨d', h1', _, _, _, _, h6'⟩ := C13_output_filename "dump".toList ".sql".toList 123456
  refine ⟨?_, d', h1', ?_⟩
  · rw [h1, h2]
    decide
  · rw [h6' (by decide)]
    decide

/-- Claim C14 as stated (no stray output), refuted: on a single statement of 50
bytes with `maxByteSize = 30` the run fails with `MaxByteSizeExceeded` at line
140 having written no chunk, and the output file of part 0, opened by line 86
before the first scan, has been created. -/
theorem C14_empty_file_left :
    scan (List.replicate 49 'a' ++ [';']) =
      .stmt (List.replicate 49 'a' ++ [';']) ⟨[], true⟩ ∧
    processFile Env.ideal (List.replicate 49 'a' ++ [';']) 30 60 =
      some ⟨.returned .MaxByteSizeExceeded, [0], [], []⟩ := by
  decide

/-- Claim C14, amended (output files on failure): on every run that fails with
`MaxByteSizeExceeded`, the output files created are those of the parts
`0, ..., k`, where `k` is the number of chunks written before the failure: one
file per written chunk and the file of the part that was being filled, which
line 86 created before the scans of the part and which stays empty. A single
statement of 50 bytes with `maxByteSize = 30` leaves exactly one output file,
the empty file of part 0. -/
theorem C14_files_on_failure (env : Env) (input : List Char) (maxByteSize w : Nat) :
    (∃ o, processFile env input maxByteSize w = some o ∧
      (o.status = .returned .MaxByteSizeExceeded →
        o.created = List.range (o.written.length + 1))) ∧
    processFile Env.ideal (List.replicate 49 'a' ++ [';']) 30 60 =
      some ⟨.returned .MaxByteSizeExceeded, [0], [], []⟩ := by
  obtain ⟨o, ho⟩ := processFile_returns env input maxByteSize w
  exact ⟨⟨o, ho, fun h => (processFile_created env input maxByteSize w o ho).1 (Or.inl h)⟩,
    by decide⟩

/-- Claim C14 (amended) at work on `AAA;BB;CCCCC;` with `maxByteSize = 4`: chunk
0 is `AAA;`, the run fails in part 1 on `CCCCC;`, and the files of parts 0 and 1
exist. -/
theorem C14_files_on_failure_witness :
    ∃ o, processFile Env.ideal "AAA;BB;CCCCC;".toList 4 60 = some o ∧
      o.written = ["AAA;".toList] ∧ o.created = [0, 1] := by
  obtain ⟨⟨o, ho, hc⟩, _⟩ := C14_files_on_failure Env.ideal "AAA;BB;CCCCC;".toList 4 60
  have hev : processFile Env.ideal "AAA;BB;CCCCC;".toList 4 60 =
      some ⟨.returned .MaxByteSizeExceeded, [0, 1], ["AAA;".toList], []⟩ := by decide
  rw [hev] at ho
  simp only [Option.some.injEq] at ho
  subst ho
  exact ⟨_, hev, rfl, hc rfl⟩

/-- Claim C15 as stated (flag true if and only if a byte remains), refuted: the
first scan of `A;` returns `A;` and leaves the stream good although no byte is
left unread. -/
theorem C15_good_with_nothing_left :
    scan "A;".toList = .stmt "A;".toList ⟨[], true⟩ := by
  decide

/-- Claim C15, amended (exhaustion flag): after a scan that returns a statement
the stream is good exactly when the scan ended at a terminating `;`, one read
with `insideQuotes` and `isEscaped` both false, and failed exactly when a read
ran into the end of the input. So the flag is true whenever a byte is left
unread, and when it is false nothing is left unread. -/
theorem C15_exhaustion_flag (cs st : List Char) (s' : Stream)
    (h : scan cs = .stmt st s') :
    (s'.rest ≠ [] → s'.good = true) ∧
    (s'.good = false → s'.rest = [] ∧ st = cs) ∧
    (s'.good = true ↔ ∃ p, st = p ++ [';'] ∧ flagsAfter false false p = (false, false)) := by
  obtain ⟨h1, h2, _⟩ := scan_consumes h
  have hfalse : s'.good = false → s'.rest = [] ∧ st = cs := by
    intro hg
    have := h2 hg
    rw [this, List.append_nil] at h1
    exact ⟨this, h1.symm⟩
  refine ⟨?_, hfalse, ?_, ?_⟩
  · intro hne
    by_contra hg
    exact hne (h2 (by simpa using hg))
  · intro hg
    obtain ⟨p, hp, _, hf⟩ := scanLoop_good_ends _ _ _ _ _ _ h hg
    exact ⟨p, by simpa using hp, hf⟩
  · rintro ⟨p, hp, hf⟩
    by_contra hg
    have hg' : s'.good = false := by simpa using hg
    obtain ⟨_, hst⟩ := hfalse hg'
    exact scanLoop_failed_unterminated _ _ _ _ _ _ h hg' p [] (by rw [← hst, hp]) hf

/-- Claim C15 (amended) at work on `A;B`: the first scan returns `A;` with `B`
left unread, so the stream is good. -/
theorem C15_exhaustion_flag_witness :
    (⟨"B".toList, true⟩ : Stream).good = true :=
  (C15_exhaustion_flag "A;B".toList "A;".toList ⟨"B".toList, true⟩ (by decide)).1 (by decide)

/-- Claim C16 (accounting of the carry): on every input and for every
`maxByteSize`, when `processFile` returns `Success` the written chunks followed
by the content of `lastReadStatement` are the input, byte for byte; the written
chunks are a prefix of the input; and what is in `lastReadStatement` is nothing
or the last statement the scanner yields, the one read at the end of the stream,
the chunks holding all the statements before it. -/
theorem C16_carry_accounting (env : Env) (input : List Char) (maxByteSize w : Nat) :
    ∃ o, processFile env input maxByteSize w = some o ∧
      (o.status = .returned .Success →
        o.written.flatten ++ o.lastReadStatement = input ∧
        o.written.flatten <+: input ∧
        ∃ before, Yields input (before ++ carried o.lastReadStatement) ∧
          before.flatten = o.written.flatten) := by
  obtain ⟨o, ho⟩ := processFile_returns env input maxByteSize w
  refine ⟨o, ho, fun hs => ?_⟩
  obtain ⟨before, h1, h2, h3⟩ := processFile_accounting env input maxByteSize w o ho hs
  exact ⟨h3, ⟨o.lastReadStatement, h3⟩, before, h1, h2⟩

/-- Claim C16 at work on `AAAA;BBBB` with `maxByteSize = 5`: the chunk `AAAA;`
and the `BBBB` left in `lastReadStatement` make up the input. -/
theorem C16_carry_accounting_witness :
    ["AAAA;".toList].flatten ++ "BBBB".toList = "AAAA;BBBB".toList := by
  obtain ⟨o, ho, h⟩ := C16_carry_accounting Env.ideal "AAAA;BBBB".toList 5 60
  have hev : processFile Env.ideal "AAAA;BBBB".toList 5 60 =
      some ⟨.returned .Success, [0], ["AAAA;".toList], "BBBB".toList⟩ := by decide
  rw [hev] at ho
  simp only [Option.some.injEq] at ho
  subst ho
  exact (h rfl).1

/-- Claim C17 as stated, refuted at the ceiling: the input of `2^30 + 1` bytes
`a` and a final `;` ends with a `;` read outside quotes and not escaped, its
only statement is the input itself, `2^30 + 2` bytes, and `maxByteSize` is that
length; yet the run does not return `Success`: the scan stops at the ceiling
(line 122) and the run returns `MaxByteSizeExceeded`. -/
theorem C17_ceiling_counterexample :
    flagsAfter false false (List.replicate (statementCeiling + 1) 'a') = (false, false) ∧
    ';' ∉ List.replicate (statementCeiling + 1) 'a' ∧
    (List.replicate (statementCeiling + 1) 'a' ++ [';']).length = statementCeiling + 2 ∧
    processFile Env.ideal (List.replicate (statementCeiling + 1) 'a' ++ [';'])
        (statementCeiling + 2) 60 =
      some ⟨.returned .MaxByteSizeExceeded, [0], [], []⟩ := by
  refine ⟨flagsAfter_replicate_a _, by simp [List.mem_replicate], ?_, ?_⟩
  · rw [List.length_append, List.length_replicate, List.length_singleton]
  · apply processFile_tooLong
    exact scanLoop_replicate_append_tooLong _ [] _ (by simp) (by simp)

/-- Claim C17, amended (conditional losslessness below the ceiling): let the
input be empty or end with a `;` read with `insideQuotes` and `isEscaped` both
false, let the scanner yield the statements `stmts` on it without stopping at
the ceiling, let `maxByteSize` be positive and at least the length of every
statement of `stmts`, let the bar width `w` be a value that the conversion to
`float` does not increase and that is at most the greatest length of a string
(as the 60 of `main` is), and let every file operation succeed. Then the
statement found at the end of the stream is empty, `processFile` returns
`Success` with nothing left in `lastReadStatement`, and the written chunks
concatenate to the input. -/
theorem C17_conditional_losslessness (env : Env) (input : List Char) (maxByteSize w : Nat)
    (stmts : List (List Char)) (hin : env.inputOpens = true)
    (hopen : ∀ n, env.outputOpens n = true) (hwrite : ∀ n, env.writeSucceeds n = true)
    (hpos : 0 < maxByteSize) (hw : roundToFloat w ≤ w) (hsize : w ≤ stringMaxSize)
    (hshape : input = [] ∨
      ∃ p, input = p ++ [';'] ∧ flagsAfter false false p = (false, false))
    (hS : Yields input stmts) (hmax : ∀ st ∈ stmts, st.length ≤ maxByteSize) :
    stmts.getLast? = some [] ∧
    ∃ o, processFile env input maxByteSize w = some o ∧ o.status = .returned .Success ∧
      o.lastReadStatement = [] ∧ o.written.flatten = input := by
  obtain ⟨init, hinit⟩ := scansTo_last_empty stmts ⟨input, true⟩ ⟨[], false⟩ hS rfl rfl hshape
  have hlast : stmts.getLast? = some [] := by rw [hinit]; simp
  obtain ⟨o, ho⟩ := processFile_returns env input maxByteSize w
  have hs := processFile_success env input maxByteSize w stmts o hin hopen hwrite
    (display_returns maxByteSize w hpos hw hsize) hS hmax ho
  obtain ⟨before, h1, _, h3⟩ := processFile_accounting env input maxByteSize w o ho hs
  obtain ⟨B, hB, hBt⟩ := yields_prefix h1 hS
  have hBnil := scansTo_exhausted hBt
  subst hBnil
  have hcarry : o.lastReadStatement = [] := by
    by_contra hne
    rw [hB, List.append_nil, carried_of_ne hne] at hlast
    simp at hlast
    exact hne hlast
  refine ⟨hlast, o, ho, hs, hcarry, ?_⟩
  rw [hcarry, List.append_nil] at h3
  exact h3

/-- Claim C17 (amended) at work on `A;'b;'C;` with `maxByteSize = 6` and the bar
width 60: the run succeeds and the chunks `A;` and `'b;'C;` concatenate to the
input. -/
theorem C17_conditional_losslessness_witness :
    ∃ o, processFile Env.ideal "A;'b;'C;".toList 6 60 = some o ∧
      o.status = .returned .Success ∧
      o.lastReadStatement = [] ∧ o.written.flatten = "A;'b;'C;".toList :=
  (C17_conditional_losslessness Env.ideal "A;'b;'C;".toList 6 60
    ["A;".toList, "'b;'C;".toList, []] rfl (fun _ => rfl) (fun _ => rfl)
    (by decide) (by decide) (by decide)
    (Or.inr ⟨"A;'b;'C".toList, by decide, by decide⟩) (by decide) (by decide)).2

/-- Claim C18 (no empty chunk, progress): on every non-empty input and for
every `maxByteSize`, `processFile` returns, on successful runs and on the
others, and every chunk it has written is non-empty, so the chunks are at most
as many as the input has bytes. -/
theorem C18_no_empty_chunk (env : Env) (input : List Char) (maxByteSize w : Nat)
    (hne : input ≠ []) :
    ∃ o, processFile env input maxByteSize w = some o ∧
      (∀ chunk ∈ o.written, chunk ≠ []) ∧ o.written.length ≤ input.length := by
  obtain ⟨o, ho⟩ := processFile_returns env input maxByteSize w
  refine ⟨o, ho, ?_⟩
  obtain ⟨runs, rem, t, h1, h2, h3, h4, _, _⟩ := processFile_runs env input maxByteSize w o ho
  have hruns : ∀ (rs : List (List (List Char))), List.Chain' (ClosedBy maxByteSize) rs →
      (∀ r ∈ rs, r.flatten.length ≤ maxByteSize) →
      (∀ r, rs.head? = some r → r.flatten ≠ []) → ∀ r ∈ rs, r.flatten ≠ [] := by
    intro rs
    induction rs with
    | nil => intro _ _ _ r hr; simp at hr
    | cons r0 rs ih =>
      intro hch hle hhead r hr
      rcases List.mem_cons.1 hr with rfl | hr
      · exact hhead _ rfl
      · rw [List.chain'_cons'] at hch
        refine ih hch.2 (fun x hx => hle x (by simp [hx])) ?_ r hr
        intro r1 hr1
        have hcl := hch.1 r1 (by simpa using hr1)
        have hle0 := hle r0 (by simp)
        cases r1 with
        | nil => exact absurd hcl (by simp [ClosedBy])
        | cons first more =>
          have hgt : r0.flatten.length + first.length > maxByteSize := hcl
          have hpos : first ≠ [] := by
            intro h0
            rw [h0] at hgt
            simp only [List.length_nil, Nat.add_zero] at hgt
            omega
          simp [hpos]
  have hfirst : ∀ r, runs.head? = some r → r.flatten ≠ [] := by
    intro r hr
    cases runs with
    | nil => simp at hr
    | cons r0 runs =>
      simp only [List.head?_cons, Option.some.injEq] at hr
      subst hr
      have hr0 := (h3 r0 (by simp)).1
      cases r0 with
      | nil => exact absurd rfl hr0
      | cons first more =>
        simp only [List.flatten_cons, List.cons_append, List.append_assoc] at h2
        obtain ⟨_, s', hscan, _⟩ := scansTo_cons.1 h2
        obtain ⟨c1, c2, c3⟩ := scan_consumes hscan
        have hpos : first ≠ [] := by
          by_cases hg : s'.good = true
          · exact c3 hg
          · have := c2 (by simpa using hg)
            rw [this, List.append_nil] at c1
            simp only at c1
            rw [← c1]
            exact hne
        simp [hpos]
  have hall := hruns runs h4 (fun r hr => (h3 r hr).2.1) hfirst
  have hchunks : ∀ chunk ∈ o.written, chunk ≠ [] := by
    intro chunk hc
    rw [h1, List.mem_map] at hc
    obtain ⟨r, hr, rfl⟩ := hc
    exact hall r hr
  refine ⟨hchunks, ?_⟩
  have hcount := length_le_flatten_length o.written hchunks
  have hin := scansTo_consumes h2
  simp only [List.flatten_append, List.append_assoc] at hin
  have hw : o.written.flatten = runs.flatten.flatten := by rw [h1, flatten_map_flatten]
  have hlen : input.length = runs.flatten.flatten.length + (rem.flatten ++ t.rest).length := by
    have := congrArg List.length hin
    simpa using this
  rw [hw] at hcount
  omega

/-- Claim C18 at work on `A;B;C;` with `maxByteSize = 4`. -/
theorem C18_no_empty_chunk_witness :
    ∃ o, processFile Env.ideal "A;B;C;".toList 4 60 = some o ∧
      (∀ chunk ∈ o.written, chunk ≠ []) ∧ o.written.length ≤ "A;B;C;".toList.length :=
  C18_no_empty_chunk Env.ideal "A;B;C;".toList 4 60 (by decide)

/-- Claim C19 (filenames never collide): for a fixed stem and extension the
filename is an injective function of the chunk index, over all natural numbers,
so also for the indices of six digits and more; and on every run the files
created, those of the parts `0, 1, ...`, have pairwise different names. -/
theorem C19_filenames_never_collide (stem extension : List Char) :
    Function.Injective (createOutputFilename stem extension) ∧
    ∀ (env : Env) (input : List Char) (maxByteSize w : Nat),
      ∃ o, processFile env input maxByteSize w = some o ∧
        (o.created.map (createOutputFilename stem extension)).Nodup := by
  refine ⟨createOutputFilename_injective stem extension, ?_⟩
  intro env input maxByteSize w
  obtain ⟨o, ho⟩ := processFile_returns env input maxByteSize w
  refine ⟨o, ho, ?_⟩
  obtain ⟨k, hk⟩ := processFile_created_range env input maxByteSize w o ho
  rw [hk]
  exact (List.nodup_range k).map (createOutputFilename_injective stem extension)

end MySqlDumpSplitter
